import Mathlib

/-!
Verification of the process-scheduling simulator
(`process_scheduling.py`): a shallow embedding of the data model, the four
scheduling policies (FCFS, SJF, Round-Robin, Priority), the metrics
aggregator and the API dispatch, together with proofs of the documented
properties.

Python integers are modelled as `Int`; the mutable process records are
modelled by explicit state passing (lists updated with `List.set`,
object identity modelled by list indices); the unbounded `while` loops
are modelled with an explicit fuel parameter; float rounding of the
averages is not modelled (the averages are kept as exact rationals with
the source's division guards).
-/

set_option maxHeartbeats 1000000

/-- One schedulable unit, mirroring class `Process` (fields and the
constructor's initialisation: `remaining_time = burst_time`, the three
metric fields start at `0`). -/
structure Process where
  process_id : String
  arrival_time : Int
  burst_time : Int
  priority : Int
  remaining_time : Int
  finish_time : Int
  turnaround_time : Int
  waiting_time : Int
deriving DecidableEq, Repr

/-- `Process.__init__`: a fresh record with `remaining_time = burst_time`
and zeroed metrics. -/
def mkProcess (pid : String) (arrival burst prio : Int) : Process :=
  { process_id := pid, arrival_time := arrival, burst_time := burst, priority := prio,
    remaining_time := burst, finish_time := 0, turnaround_time := 0, waiting_time := 0 }

/-- `Process.copy`: a fresh record with the identity fields and
`remaining_time` copied (the metric fields are those of the constructor,
i.e. `0`). -/
def Process.copy (p : Process) : Process :=
  { process_id := p.process_id, arrival_time := p.arrival_time, burst_time := p.burst_time,
    priority := p.priority, remaining_time := p.remaining_time,
    finish_time := 0, turnaround_time := 0, waiting_time := 0 }

/-- The immutable identity of a process: id, arrival, burst, priority. -/
def coreOf (p : Process) : String × Int × Int × Int :=
  (p.process_id, p.arrival_time, p.burst_time, p.priority)

/-- One interval of the Gantt chart, mirroring class `GanttEntry`. -/
structure GanttEntry where
  process_id : String
  start_time : Int
  end_time : Int
deriving DecidableEq, Repr

/-- The mutable schedule-construction state shared by the policies:
the Gantt list, the clock and the accumulated idle time. -/
structure SimState where
  gantt : List GanttEntry
  current_time : Int
  total_idle_time : Int
deriving DecidableEq, Repr

/-- Python's stable `list.sort(key=lambda p: p.arrival_time)`:
insertion sort with the non-strict key comparison keeps elements with
equal arrival times in their original order, exactly as a stable sort. -/
def sortByArrival (l : List Process) : List Process :=
  List.insertionSort (fun p r => p.arrival_time ≤ r.arrival_time) l

instance : IsTotal Process (fun p r => p.arrival_time ≤ r.arrival_time) :=
  ⟨fun a b => Int.le_total a.arrival_time b.arrival_time⟩

instance : IsTrans Process (fun p r => p.arrival_time ≤ r.arrival_time) :=
  ⟨fun _ _ _ h h' => le_trans h h'⟩

/-- The structured result of one simulation run, mirroring the dictionary
built by `get_results_dict` (averages as exact rationals; the final
float rounding of the Python code is not modelled). -/
structure ScheduleResult where
  processes : List Process
  gantt : List GanttEntry
  total_time : Int
  total_idle_time : Int
  average_turnaround_time : Rat
  average_waiting_time : Rat
  cpu_utilization : Rat
deriving DecidableEq, Repr

/-- `get_results_dict`: aggregates the finished processes and Gantt list,
with the source's guards against an empty process list and a zero
`total_time` (so no division by zero can occur). -/
def get_results_dict (processes : List Process) (gantt : List GanttEntry)
    (total_time total_idle_time : Int) : ScheduleResult :=
  let total_turnaround := (processes.map Process.turnaround_time).sum
  let total_waiting := (processes.map Process.waiting_time).sum
  { processes := processes, gantt := gantt, total_time := total_time,
    total_idle_time := total_idle_time,
    average_turnaround_time :=
      if processes.isEmpty then 0 else (total_turnaround : Rat) / (processes.length : Rat),
    average_waiting_time :=
      if processes.isEmpty then 0 else (total_waiting : Rat) / (processes.length : Rat),
    cpu_utilization :=
      if 0 < total_time then
        ((total_time - total_idle_time : Int) : Rat) / (total_time : Rat) * 100
      else 0 }

/-- One iteration of `schedule_fcfs`'s `for` loop: advance over an idle
gap if the process arrives in the future, run it for its full burst,
write its metrics.  Returns the mutated record and the new state. -/
def fcfsStep (st : SimState) (p : Process) : Process × SimState :=
  let st1 : SimState :=
    if st.current_time < p.arrival_time then
      { gantt := st.gantt ++ [⟨"IDLE", st.current_time, p.arrival_time⟩],
        current_time := p.arrival_time,
        total_idle_time := st.total_idle_time + (p.arrival_time - st.current_time) }
    else st
  let fin := st1.current_time + p.burst_time
  let p' : Process :=
    { p with finish_time := fin, turnaround_time := fin - p.arrival_time,
             waiting_time := (fin - p.arrival_time) - p.burst_time }
  let st2 : SimState :=
    { st1 with gantt := st1.gantt ++ [⟨p.process_id, st1.current_time, fin⟩],
               current_time := fin }
  (p', st2)

/-- The body of `schedule_fcfs`'s `for` loop over the arrival-sorted list.
Returns the processed records (the same list objects the caller's list
holds, mutated) and the final state. -/
def fcfsRun : List Process → SimState → List Process × SimState
  | [], st => ([], st)
  | p :: rest, st =>
    let s := fcfsStep st p
    let r := fcfsRun rest s.2
    (s.1 :: r.1, r.2)

/-- `schedule_fcfs`: sort by arrival time (stable), run each process in
order, aggregate. -/
def schedule_fcfs (processes : List Process) : ScheduleResult :=
  let r := fcfsRun (sortByArrival processes) { gantt := [], current_time := 0, total_idle_time := 0 }
  get_results_dict r.1 r.2.gantt r.2.current_time r.2.total_idle_time

/-- The caller's list after a `schedule_fcfs` call: the source sorts the
caller's list in place and writes the metric fields into the caller's
records, so the post-state is the sorted, metric-updated list. -/
def fcfs_post (processes : List Process) : List Process :=
  (fcfsRun (sortByArrival processes) { gantt := [], current_time := 0, total_idle_time := 0 }).1

/-- Strict lexicographic order on the two-component sort keys used by
SJF (`(burst_time, arrival_time)`) and Priority (`(priority, arrival_time)`). -/
def lexLt (a b : Int × Int) : Bool :=
  a.1 < b.1 || (a.1 == b.1 && a.2 < b.2)

/-- Python's `min(l, key=k)`: the first element attaining the minimal
key (a later element replaces the current best only when its key is
strictly smaller). -/
def minByKey (key : α → Int × Int) : List α → Option α
  | [] => none
  | x :: xs =>
    match minByKey key xs with
    | none => some x
    | some y => if lexLt (key y) (key x) then some y else some x

/-- Python's `min` on a list of integers (`none` on the empty list, on
which the source would raise `ValueError`). -/
def minIntList : List Int → Option Int
  | [] => none
  | x :: xs =>
    match minIntList xs with
    | none => some x
    | some y => some (min x y)

/-- The `available` list comprehension of `schedule_sjf` /
`schedule_priority`: arrived and not completed.  Object identity of the
Python records is modelled by the index into the process list, so the
identity test `p not in completed` becomes an index membership test. -/
def availList (procs : List Process) (comp : List Nat) (t : Int) : List (Nat × Process) :=
  procs.enum.filter (fun ip => decide (ip.2.arrival_time ≤ t) && !(comp.contains ip.1))

/-- The arrival times of the not-yet-completed processes (the generator
inside the idle branch's `min`). -/
def uncompletedArrivals (procs : List Process) (comp : List Nat) : List Int :=
  (procs.enum.filter (fun ip => !(comp.contains ip.1))).map (fun ip => ip.2.arrival_time)

/-- The shared `while` loop of `schedule_sjf` and `schedule_priority`
(the two Python functions are identical except for the selection key):
if nothing is available, append an IDLE interval up to the next arrival
and continue; otherwise run the minimal-key available process to
completion and record it.  `fuel` bounds the number of iterations;
`none` means the fuel ran out (or the idle branch's `min` was applied to
an empty generator, which would raise in Python). -/
def npLoop (key : Process → Int × Int) :
    Nat → List Process → List Nat → SimState → Option (List Process × SimState)
  | 0, procs, comp, st => if comp.length < procs.length then none else some (procs, st)
  | fuel+1, procs, comp, st =>
    if comp.length < procs.length then
      match minByKey (fun ip => key ip.2) (availList procs comp st.current_time) with
      | none =>
        match minIntList (uncompletedArrivals procs comp) with
        | none => none
        | some na =>
          npLoop key fuel procs comp
            { gantt := st.gantt ++ [⟨"IDLE", st.current_time, na⟩],
              current_time := na,
              total_idle_time := st.total_idle_time + (na - st.current_time) }
      | some ip =>
        let fin := st.current_time + ip.2.burst_time
        let p' : Process :=
          { ip.2 with finish_time := fin,
                      turnaround_time := fin - ip.2.arrival_time,
                      waiting_time := (fin - ip.2.arrival_time) - ip.2.burst_time }
        npLoop key fuel (procs.set ip.1 p') (comp ++ [ip.1])
          { gantt := st.gantt ++ [⟨ip.2.process_id, st.current_time, fin⟩],
            current_time := fin, total_idle_time := st.total_idle_time }
    else some (procs, st)

/-- SJF's selection key: shortest burst first, ties by earlier arrival. -/
def sjfKey (p : Process) : Int × Int := (p.burst_time, p.arrival_time)

/-- Priority's selection key: lower priority value first, ties by earlier
arrival. -/
def priorityKey (p : Process) : Int × Int := (p.priority, p.arrival_time)

/-- `schedule_sjf` with an explicit iteration bound. -/
def schedule_sjf (processes : List Process) (fuel : Nat) : Option ScheduleResult :=
  (npLoop sjfKey fuel processes [] { gantt := [], current_time := 0, total_idle_time := 0 }).map
    fun r => get_results_dict r.1 r.2.gantt r.2.current_time r.2.total_idle_time

/-- `schedule_priority` with an explicit iteration bound. -/
def schedule_priority (processes : List Process) (fuel : Nat) : Option ScheduleResult :=
  (npLoop priorityKey fuel processes [] { gantt := [], current_time := 0, total_idle_time := 0 }).map
    fun r => get_results_dict r.1 r.2.gantt r.2.current_time r.2.total_idle_time

/-- The caller's list after a `schedule_sjf` call: the source writes the
metric fields into the caller's records (list order unchanged). -/
def sjf_post (processes : List Process) (fuel : Nat) : Option (List Process) :=
  (npLoop sjfKey fuel processes [] { gantt := [], current_time := 0, total_idle_time := 0 }).map
    Prod.fst

/-- The caller's list after a `schedule_priority` call: as for SJF. -/
def priority_post (processes : List Process) (fuel : Nat) : Option (List Process) :=
  (npLoop priorityKey fuel processes [] { gantt := [], current_time := 0, total_idle_time := 0 }).map
    Prod.fst

/-- The mutable state of `schedule_rr`'s main loop.  The FIFO ready
queue holds references to the records of the arrival-sorted private copy
`processes_copy`; reference identity is modelled by the index into
`pcs`. -/
structure RRState where
  pcs : List Process
  ready_queue : List Nat
  completedCount : Nat
  process_index : Nat
  gantt : List GanttEntry
  current_time : Int
  total_idle_time : Int
deriving DecidableEq, Repr

/-- The observable outcome of running the RR `while` loop with a given
amount of fuel: normal exit, fuel exhausted (the Python loop is still
running), or an uncaught `IndexError` from `processes_copy[process_index]`
in the idle branch. -/
inductive RROut where
  | ok : RRState → RROut
  | fuelOut : RROut
  | crash : RROut
deriving DecidableEq, Repr

/-- Structural helper for `enqueueArrived`: the first argument counts
the indices still ahead of `idx`; it is always instantiated with
`pcs.length - idx`, which decreases by exactly one per iteration, so the
recursion reproduces the source's `while` loop exactly. -/
def enqueueArrivedAux (pcs : List Process) (t : Int) : Nat → Nat → List Nat → Nat × List Nat
  | 0, idx, queue => (idx, queue)
  | k+1, idx, queue =>
    match pcs[idx]? with
    | some p =>
      if p.arrival_time ≤ t then enqueueArrivedAux pcs t k (idx + 1) (queue ++ [idx])
      else (idx, queue)
    | none => (idx, queue)

/-- The inner `while process_index < len(processes_copy) and
processes_copy[process_index].arrival_time <= current_time` loop: append
every newly arrived process (in arrival-sorted order) to the ready
queue. -/
def enqueueArrived (pcs : List Process) (t : Int) (idx : Nat) (queue : List Nat) :
    Nat × List Nat :=
  enqueueArrivedAux pcs t (pcs.length - idx) idx queue

/-- The second half of the RR loop body: dequeue the head, run it for
`min(time_quantum, remaining_time)` ticks, admit the newly arrived
processes, then re-append (preempted) or finish.  `none` models the
unreachable dequeue-from-empty. -/
def rrRunStep (q : Int) (s : RRState) : Option RRState :=
  match s.ready_queue with
  | [] => none
  | c :: rest =>
    match s.pcs[c]? with
    | none => none
    | some cur =>
      let execute_time := min q cur.remaining_time
      let t2 := s.current_time + execute_time
      let gantt2 := s.gantt ++ [⟨cur.process_id, s.current_time, t2⟩]
      let rem2 := cur.remaining_time - execute_time
      let pcs2 := s.pcs.set c { cur with remaining_time := rem2 }
      let ea := enqueueArrived pcs2 t2 s.process_index rest
      if 0 < rem2 then
        some { pcs := pcs2, ready_queue := ea.2 ++ [c],
               completedCount := s.completedCount, process_index := ea.1,
               gantt := gantt2, current_time := t2,
               total_idle_time := s.total_idle_time }
      else
        some { pcs := pcs2.set c { cur with remaining_time := rem2, finish_time := t2,
                                            turnaround_time := t2 - cur.arrival_time,
                                            waiting_time := (t2 - cur.arrival_time) - cur.burst_time },
               ready_queue := ea.2,
               completedCount := s.completedCount + 1, process_index := ea.1,
               gantt := gantt2, current_time := t2,
               total_idle_time := s.total_idle_time }

/-- One iteration of `schedule_rr`'s `while completed <
len(processes_copy)` loop: the idle branch (executed when the ready
queue is empty; `none` models its possible `IndexError` on
`processes_copy[process_index]`), followed by `rrRunStep`. -/
def rrStep (q : Int) (s : RRState) : Option RRState :=
  if s.ready_queue.isEmpty then
    match s.pcs[s.process_index]? with
    | none => none
    | some p =>
      rrRunStep q
        { s with gantt := s.gantt ++ [⟨"IDLE", s.current_time, p.arrival_time⟩],
                 total_idle_time := s.total_idle_time + (p.arrival_time - s.current_time),
                 current_time := p.arrival_time,
                 ready_queue := s.ready_queue ++ [s.process_index],
                 process_index := s.process_index + 1 }
  else rrRunStep q s

/-- The RR main loop with an explicit fuel bound on the number of
iterations. -/
def rrLoop (q : Int) : Nat → RRState → RROut
  | 0, s => if s.completedCount < s.pcs.length then RROut.fuelOut else RROut.ok s
  | fuel+1, s =>
    if s.completedCount < s.pcs.length then
      match rrStep q s with
      | some s' => rrLoop q fuel s'
      | none => RROut.crash
    else RROut.ok s

/-- The initial RR state: a private copy of every record, sorted by
arrival time, with the single leading process enqueued when its arrival
time is `≤ 0` (the source uses an `if`, not a loop, here). -/
def rrInit (processes : List Process) : RRState :=
  let pcs := sortByArrival (processes.map Process.copy)
  let s0 : RRState := { pcs := pcs, ready_queue := [], completedCount := 0, process_index := 0,
                        gantt := [], current_time := 0, total_idle_time := 0 }
  match pcs with
  | [] => s0
  | p :: _ => if p.arrival_time ≤ 0 then { s0 with ready_queue := [0], process_index := 1 } else s0

/-- `schedule_rr`: run the loop on the sorted private copy; `none` when
the fuel runs out (the Python loop would still be running) or the idle
branch raises. -/
def schedule_rr (processes : List Process) (time_quantum : Int) (fuel : Nat) :
    Option ScheduleResult :=
  match rrLoop time_quantum fuel (rrInit processes) with
  | RROut.ok s => some (get_results_dict s.pcs s.gantt s.current_time s.total_idle_time)
  | _ => none

/-- The caller's list after a `schedule_rr` call: the source first takes
a private copy of every record (`processes_copy = [p.copy() for p in
processes]`) and mutates only the copies, so the caller's list is
unchanged. -/
def rr_post (processes : List Process) (time_quantum : Int) (fuel : Nat) : List Process :=
  processes

/-- One process descriptor of the request body of `/api/schedule`. -/
structure ProcData where
  id : String
  arrival : Int
  burst : Int
  priority : Int
deriving DecidableEq, Repr

/-- The `api_schedule` endpoint: build `Process` records, reject an
empty list, dispatch on the algorithm name (each policy receives a fresh
copy of every record), reject an unknown name.  The outer `Option` is
the fuel/termination layer for the loop-based policies: `none` means the
Python call would not have returned yet. -/
def api_schedule (processes_data : List ProcData) (algorithm : String) (time_quantum : Int)
    (fuel : Nat) : Option (Except String ScheduleResult) :=
  let processes := processes_data.map fun d => mkProcess d.id d.arrival d.burst d.priority
  if processes.isEmpty then some (Except.error "No processes provided")
  else if algorithm = "fcfs" then some (Except.ok (schedule_fcfs (processes.map Process.copy)))
  else if algorithm = "sjf" then (schedule_sjf (processes.map Process.copy) fuel).map Except.ok
  else if algorithm = "rr" then
    (schedule_rr (processes.map Process.copy) time_quantum fuel).map Except.ok
  else if algorithm = "priority" then
    (schedule_priority (processes.map Process.copy) fuel).map Except.ok
  else some (Except.error "Invalid algorithm")

/-- The result `get_results_dict` produces for an empty run. -/
def emptyResult : ScheduleResult :=
  { processes := [], gantt := [], total_time := 0, total_idle_time := 0,
    average_turnaround_time := 0, average_waiting_time := 0, cpu_utilization := 0 }

/-- The RR loop state reached from a single process `A` (arrival 0,
burst 1) with quantum `0`, parametrised by the Gantt list accumulated so
far: the queue, clock and remaining time never change, only the Gantt
list grows by zero-length entries. -/
def c1State (g : List GanttEntry) : RRState :=
  { pcs := [⟨"A", 0, 1, 0, 1, 0, 0, 0⟩], ready_queue := [0], completedCount := 0,
    process_index := 1, gantt := g, current_time := 0, total_idle_time := 0 }

lemma c1_loop_stuck : ∀ (fuel : Nat) (g : List GanttEntry),
    rrLoop 0 fuel (c1State g) = RROut.fuelOut := by
  intro fuel
  induction fuel with
  | zero => intro g; rfl
  | succ n ih =>
    intro g
    have h : rrLoop 0 (n + 1) (c1State g) = rrLoop 0 n (c1State (g ++ [⟨"A", 0, 0⟩])) := rfl
    rw [h]
    exact ih _

/-- Claim C1 (code bug): `schedule_rr` performs no validation of
`time_quantum`.  With the non-positive quantum `0` and the single
process `A` (arrival 0, burst 1) the loop body runs the head process for
`min(0, remaining) = 0` ticks, so `remaining_time` never decreases and
the `while completed < len(processes_copy)` loop never terminates: for
every fuel bound the call has not returned (and no `InvalidQuantum`
error exists anywhere in the source). -/
theorem C1_rr_quantum_not_validated :
    ∀ fuel : Nat, schedule_rr [mkProcess "A" 0 1 0] 0 fuel = none := by
  intro fuel
  have h : rrInit [mkProcess "A" 0 1 0] = c1State [] := rfl
  rw [schedule_rr, h, c1_loop_stuck]

/-- Claim C2 (counterexample): called directly with an empty process
list, every one of the four policy functions returns a metrics result
(the zero result) instead of rejecting the input — the `EmptyInput`
rejection lives only in the API layer. -/
theorem C2_counterexample :
    schedule_fcfs [] = emptyResult ∧
    schedule_sjf [] 0 = some emptyResult ∧
    schedule_rr [] 1 0 = some emptyResult ∧
    schedule_priority [] 0 = some emptyResult := by
  decide

/-- Claim C2 (amended): the empty-input rejection happens in
`api_schedule`, which returns the error response before any policy
runs, for every algorithm selector, quantum and fuel; the policy
functions themselves accept an empty list, and no division by zero
occurs because `get_results_dict` guards both the `len(processes) = 0`
and the `total_time = 0` divisions. -/
theorem C2_empty_rejected_at_api :
    ∀ (alg : String) (q : Int) (fuel : Nat),
      api_schedule [] alg q fuel = some (Except.error "No processes provided") := by
  intro alg q fuel
  rfl

/-- Claim C3 (counterexample): `schedule_fcfs` mutates the caller's
records in place — after a call on the single process `A` (arrival 0,
burst 1) the caller's record has `finish_time = 1`, no longer its
original value. -/
theorem C3_counterexample :
    fcfs_post [mkProcess "A" 0 1 0] ≠ [mkProcess "A" 0 1 0] := by
  decide

/-- Claim C3 (amended): only `schedule_rr` operates on a private copy
of the input records (the caller's list is unchanged for every input,
quantum and fuel); `schedule_sjf` and `schedule_priority` — like
`schedule_fcfs` — write the metric fields into the caller's records in
place.  Callers in this codebase preserve their originals only by
passing fresh copies to the policies. -/
theorem C3_only_rr_copies :
    (∀ (ps : List Process) (q : Int) (fuel : Nat), rr_post ps q fuel = ps) ∧
    sjf_post [mkProcess "A" 0 1 0] 3 ≠ some [mkProcess "A" 0 1 0] ∧
    priority_post [mkProcess "A" 0 1 0] 3 ≠ some [mkProcess "A" 0 1 0] := by
  exact ⟨fun ps q fuel => rfl, by decide, by decide⟩

/-- Claim C4 (counterexample): on processes `A` (arrival 0, burst 5) and
`B` (arrival 1, burst 3) with quantum 2, the produced Gantt sequence is
not the four-entry sequence `[A:0-2, B:2-4, A:4-6, B:6-7]` stated by the
claim (those four entries cover only 7 of the 8 required CPU ticks). -/
theorem C4_counterexample :
    Option.map ScheduleResult.gantt (schedule_rr [mkProcess "A" 0 5 1, mkProcess "B" 1 3 1] 2 10) ≠
      some [⟨"A", 0, 2⟩, ⟨"B", 2, 4⟩, ⟨"A", 4, 6⟩, ⟨"B", 6, 7⟩] := by
  decide

/-- Claim C4 (amended): the run produces exactly the five-entry Gantt
sequence `[A:0-2, B:2-4, A:4-6, B:6-7, A:7-8]` — A is preempted at t=2
with 3 remaining, the newly arrived B is enqueued before A's
re-insertion, B finishes at t=7, and A's final remaining unit runs in
`[7, 8)`. -/
theorem C4_rr_trace :
    Option.map ScheduleResult.gantt (schedule_rr [mkProcess "A" 0 5 1, mkProcess "B" 1 3 1] 2 10) =
      some [⟨"A", 0, 2⟩, ⟨"B", 2, 4⟩, ⟨"A", 4, 6⟩, ⟨"B", 6, 7⟩, ⟨"A", 7, 8⟩] := by
  decide

/-- A Gantt list is a contiguous chain of intervals from clock value `a`
to clock value `b`: the first entry starts at `a`, each entry ends where
the next one starts, and the last entry ends at `b`. -/
def ganttChain : List GanttEntry → Int → Int → Prop
  | [], a, b => a = b
  | e :: rest, a, b => e.start_time = a ∧ ganttChain rest e.end_time b

lemma ganttChain_append (g : List GanttEntry) (pid : String) :
    ∀ a b c : Int, ganttChain g a b → ganttChain (g ++ [⟨pid, b, c⟩]) a c := by
  induction g with
  | nil =>
    intro a b c h
    simp only [ganttChain] at h
    simp [ganttChain, h]
  | cons e rest ih =>
    intro a b c h
    exact ⟨h.1, ih _ _ _ h.2⟩

lemma ganttChain_sum (g : List GanttEntry) :
    ∀ a b, ganttChain g a b → (g.map fun e => e.end_time - e.start_time).sum = b - a := by
  induction g with
  | nil =>
    intro a b h
    simp only [ganttChain] at h
    simp [h]
  | cons e rest ih =>
    intro a b h
    have hs := ih _ _ h.2
    simp only [List.map_cons, List.sum_cons, hs, h.1]
    omega

lemma ganttChain_ge (g : List GanttEntry) :
    ∀ a b, ganttChain g a b → (∀ e ∈ g, e.start_time ≤ e.end_time) →
      a ≤ b ∧ ∀ e ∈ g, a ≤ e.start_time := by
  induction g with
  | nil =>
    intro a b h _
    simp only [ganttChain] at h
    simp [h]
  | cons e rest ih =>
    intro a b h hm
    obtain ⟨h1, h2⟩ := h
    have he : e.start_time ≤ e.end_time := hm e (by simp)
    have hr := ih _ _ h2 (fun f hf => hm f (by simp [hf]))
    refine ⟨by omega, ?_⟩
    intro f hf
    rcases List.mem_cons.mp hf with rfl | hf'
    · omega
    · have := hr.2 f hf'
      omega

lemma ganttChain_pairwise (g : List GanttEntry) :
    ∀ a b, ganttChain g a b → (∀ e ∈ g, e.start_time ≤ e.end_time) →
      List.Pairwise (fun e f => e.start_time ≤ f.start_time) g := by
  induction g with
  | nil => intro a b _ _; exact List.Pairwise.nil
  | cons e rest ih =>
    intro a b h hm
    have hr := ganttChain_ge rest _ _ h.2 (fun f hf => hm f (by simp [hf]))
    refine List.Pairwise.cons ?_ (ih _ _ h.2 (fun f hf => hm f (by simp [hf])))
    intro f hf
    have h1 := hr.2 f hf
    have h2 := hm e (by simp)
    omega

lemma ganttChain_head (g : List GanttEntry) (a b : Int) (h : ganttChain g a b) :
    ∀ e, g.head? = some e → e.start_time = a := by
  cases g with
  | nil => intro e he; simp at he
  | cons f rest =>
    intro e he
    simp only [List.head?_cons, Option.some.injEq] at he
    subst he
    exact h.1

/-- The full contiguity property claimed for a Gantt sequence with final
clock value `T`: chained from 0 to `T`, non-negative durations,
non-decreasing start times, first entry (if any) starting at 0, and the
durations summing to `T`. -/
def GanttOK (g : List GanttEntry) (T : Int) : Prop :=
  ganttChain g 0 T ∧ (∀ e ∈ g, e.start_time ≤ e.end_time) ∧
  List.Pairwise (fun e f => e.start_time ≤ f.start_time) g ∧
  (∀ e, g.head? = some e → e.start_time = 0) ∧
  (g.map fun e => e.end_time - e.start_time).sum = T

lemma ganttOK_of (g : List GanttEntry) (T : Int) (h : ganttChain g 0 T)
    (hm : ∀ e ∈ g, e.start_time ≤ e.end_time) : GanttOK g T := by
  refine ⟨h, hm, ganttChain_pairwise g 0 T h hm, ganttChain_head g 0 T h, ?_⟩
  have := ganttChain_sum g 0 T h
  omega

/-- A well-formed input process: non-negative arrival, positive burst,
`remaining_time` still at its initial value `burst_time` (as every
record built by `Process.__init__` satisfies). -/
def ValidProcess (p : Process) : Prop :=
  0 ≤ p.arrival_time ∧ 0 < p.burst_time ∧ p.remaining_time = p.burst_time

instance (p : Process) : Decidable (ValidProcess p) := by
  unfold ValidProcess
  infer_instance

/-- A well-formed input: every process record is well-formed. -/
def ValidInput (ps : List Process) : Prop := ∀ p ∈ ps, ValidProcess p

instance (ps : List Process) : Decidable (ValidInput ps) :=
  List.decidableBAll _ ps

/-- The per-process metric invariant of a completed process. -/
def MetricsOK (p : Process) : Prop :=
  p.turnaround_time = p.finish_time - p.arrival_time ∧
  p.waiting_time = p.turnaround_time - p.burst_time ∧
  0 ≤ p.waiting_time

instance (p : Process) : Decidable (MetricsOK p) := by
  unfold MetricsOK
  infer_instance

lemma fcfsRun_cons (p : Process) (rest : List Process) (st : SimState) :
    fcfsRun (p :: rest) st =
      ((fcfsStep st p).1 :: (fcfsRun rest (fcfsStep st p).2).1,
       (fcfsRun rest (fcfsStep st p).2).2) := rfl

lemma fcfsStep_core (st : SimState) (p : Process) : coreOf (fcfsStep st p).1 = coreOf p := by
  simp [fcfsStep, coreOf]

lemma fcfsStep_metrics (st : SimState) (p : Process) : MetricsOK (fcfsStep st p).1 := by
  unfold fcfsStep MetricsOK
  by_cases hlt : st.current_time < p.arrival_time <;> simp [hlt] <;> omega

lemma fcfsStep_acct (st : SimState) (p : Process) :
    (fcfsStep st p).2.current_time - (fcfsStep st p).2.total_idle_time =
      st.current_time - st.total_idle_time + p.burst_time := by
  unfold fcfsStep
  by_cases hlt : st.current_time < p.arrival_time <;> simp [hlt] <;> omega

lemma fcfsStep_chain (st : SimState) (p : Process) (a : Int)
    (h : ganttChain st.gantt a st.current_time) :
    ganttChain (fcfsStep st p).2.gantt a (fcfsStep st p).2.current_time := by
  unfold fcfsStep
  by_cases hlt : st.current_time < p.arrival_time
  · simp only [hlt, if_true]
    exact ganttChain_append _ _ _ _ _ (ganttChain_append _ _ _ _ _ h)
  · simp only [hlt, if_false]
    exact ganttChain_append _ _ _ _ _ h

lemma fcfsStep_mono (st : SimState) (p : Process) (hb : 0 < p.burst_time)
    (hm : ∀ e ∈ st.gantt, e.start_time ≤ e.end_time) :
    ∀ e ∈ (fcfsStep st p).2.gantt, e.start_time ≤ e.end_time := by
  unfold fcfsStep
  by_cases hlt : st.current_time < p.arrival_time <;> simp only [hlt, if_true, if_false]
  · intro e he
    rcases List.mem_append.mp he with he' | he'
    · rcases List.mem_append.mp he' with h0 | h0
      · exact hm e h0
      · simp at h0
        subst h0
        simp
        omega
    · simp at he'
      subst he'
      simp
      omega
  · intro e he
    rcases List.mem_append.mp he with he' | he'
    · exact hm e he'
    · simp at he'
      subst he'
      simp
      omega

lemma fcfsRun_spec : ∀ (l : List Process) (st : SimState),
    (fcfsRun l st).1.map coreOf = l.map coreOf ∧
    (fcfsRun l st).2.current_time - (fcfsRun l st).2.total_idle_time =
      st.current_time - st.total_idle_time + (l.map Process.burst_time).sum ∧
    (∀ a, ganttChain st.gantt a st.current_time →
      ganttChain (fcfsRun l st).2.gantt a (fcfsRun l st).2.current_time) ∧
    ((∀ p ∈ l, 0 < p.burst_time) → (∀ e ∈ st.gantt, e.start_time ≤ e.end_time) →
      ∀ e ∈ (fcfsRun l st).2.gantt, e.start_time ≤ e.end_time) ∧
    (∀ r ∈ (fcfsRun l st).1, MetricsOK r) := by
  intro l
  induction l with
  | nil =>
    intro st
    simp [fcfsRun, ganttChain]
  | cons p rest ih =>
    intro st
    obtain ⟨ih1, ih2, ih3, ih4, ih5⟩ := ih (fcfsStep st p).2
    have ha := fcfsStep_acct st p
    refine ⟨?_, ?_, ?_, ?_, ?_⟩
    · simp [fcfsRun_cons, ih1, fcfsStep_core]
    · simp only [fcfsRun_cons, List.map_cons, List.sum_cons]
      omega
    · intro a hch
      simp only [fcfsRun_cons]
      exact ih3 a (fcfsStep_chain st p a hch)
    · intro hb hm
      simp only [fcfsRun_cons]
      exact ih4 (fun r hr => hb r (by simp [hr]))
        (fcfsStep_mono st p (hb p (by simp)) hm)
    · intro r hr
      simp only [fcfsRun_cons, List.mem_cons] at hr
      rcases hr with rfl | hr'
      · exact fcfsStep_metrics st p
      · exact ih5 r hr'

lemma map_burst_of_map_core {l l' : List Process} (h : l.map coreOf = l'.map coreOf) :
    l.map Process.burst_time = l'.map Process.burst_time := by
  have h2 := congrArg (List.map fun c : String × Int × Int × Int => c.2.2.1) h
  simpa [List.map_map, Function.comp, coreOf] using h2

lemma length_of_map_core {l l' : List Process} (h : l.map coreOf = l'.map coreOf) :
    l.length = l'.length := by
  have h2 := congrArg List.length h
  simpa using h2

lemma sortByArrival_perm (l : List Process) : (sortByArrival l).Perm l :=
  List.perm_insertionSort _ l

/-- All documented schedule-level facts for FCFS on a valid input. -/
lemma schedule_fcfs_spec (ps : List Process) (hv : ValidInput ps) :
    GanttOK (schedule_fcfs ps).gantt (schedule_fcfs ps).total_time ∧
    (∀ r ∈ (schedule_fcfs ps).processes, MetricsOK r) ∧
    ((schedule_fcfs ps).processes.map coreOf).Perm (ps.map coreOf) ∧
    ((schedule_fcfs ps).processes.map Process.burst_time).sum +
      (schedule_fcfs ps).total_idle_time = (schedule_fcfs ps).total_time ∧
    (schedule_fcfs ps).processes.length = ps.length := by
  obtain ⟨h1, h2, h3, h4, h5⟩ :=
    fcfsRun_spec (sortByArrival ps) { gantt := [], current_time := 0, total_idle_time := 0 }
  have hperm := sortByArrival_perm ps
  have hgantt : (schedule_fcfs ps).gantt =
      (fcfsRun (sortByArrival ps) { gantt := [], current_time := 0, total_idle_time := 0 }).2.gantt := rfl
  have htt : (schedule_fcfs ps).total_time =
      (fcfsRun (sortByArrival ps) { gantt := [], current_time := 0, total_idle_time := 0 }).2.current_time := rfl
  have hti : (schedule_fcfs ps).total_idle_time =
      (fcfsRun (sortByArrival ps) { gantt := [], current_time := 0, total_idle_time := 0 }).2.total_idle_time := rfl
  have hpr : (schedule_fcfs ps).processes =
      (fcfsRun (sortByArrival ps) { gantt := [], current_time := 0, total_idle_time := 0 }).1 := rfl
  have hbpos : ∀ p ∈ sortByArrival ps, 0 < p.burst_time := by
    intro p hp
    exact (hv p (hperm.mem_iff.mp hp)).2.1
  have hchain := h3 0 rfl
  have hmono := h4 hbpos (by simp)
  have hsum : ((schedule_fcfs ps).processes.map Process.burst_time).sum =
      ((sortByArrival ps).map Process.burst_time).sum := by
    rw [hpr, map_burst_of_map_core h1]
  refine ⟨?_, ?_, ?_, ?_, ?_⟩
  · rw [hgantt, htt]
    exact ganttOK_of _ _ hchain hmono
  · intro r hr
    exact h5 r (by rwa [hpr] at hr)
  · rw [hpr, h1]
    exact hperm.map coreOf
  · rw [hsum, htt, hti]
    simp at h2
    omega
  · rw [hpr, length_of_map_core h1]
    exact hperm.length_eq

/-- The burst time of the record at index `i` (0 out of range). -/
def burstAtD (procs : List Process) (i : Nat) : Int :=
  match procs[i]? with
  | some p => p.burst_time
  | none => 0

lemma set_same {α : Type} : ∀ (l : List α) (i : Nat) (x : α), l[i]? = some x → l.set i x = l := by
  intro l
  induction l with
  | nil => intro i x h; simp at h
  | cons a rest ih =>
    intro i x h
    cases i with
    | zero => simp at h; simp [h]
    | succ j => simp at h; simp [ih j x h]

lemma minByKey_eq_none {α : Type} {key : α → Int × Int} {l : List α} :
    minByKey key l = none ↔ l = [] := by
  cases l with
  | nil => simp [minByKey]
  | cons x xs =>
    simp only [minByKey]
    cases h : minByKey key xs with
    | none => simp
    | some y => by_cases hlt : lexLt (key y) (key x) <;> simp [hlt]

lemma minByKey_mem {α : Type} {key : α → Int × Int} : ∀ {l : List α} {x : α},
    minByKey key l = some x → x ∈ l := by
  intro l
  induction l with
  | nil => intro x h; simp [minByKey] at h
  | cons a rest ih =>
    intro x h
    simp only [minByKey] at h
    cases h2 : minByKey key rest with
    | none => rw [h2] at h; simp at h; simp [h]
    | some y =>
      rw [h2] at h
      by_cases hlt : lexLt (key y) (key a)
      · simp [hlt] at h
        subst h
        exact List.mem_cons_of_mem a (ih h2)
      · simp [hlt] at h
        simp [h]

lemma minIntList_mem : ∀ {l : List Int} {m : Int}, minIntList l = some m → m ∈ l := by
  intro l
  induction l with
  | nil => intro m h; simp [minIntList] at h
  | cons x xs ih =>
    intro m h
    simp only [minIntList] at h
    cases h2 : minIntList xs with
    | none => rw [h2] at h; simp at h; simp [h]
    | some y =>
      rw [h2] at h
      simp at h
      rcases le_total x y with hxy | hxy
      · rw [min_eq_left hxy] at h
        simp [h]
      · rw [min_eq_right hxy] at h
        exact List.mem_cons_of_mem x (ih (h ▸ h2))

lemma minIntList_eq_none {l : List Int} : minIntList l = none ↔ l = [] := by
  cases l with
  | nil => simp [minIntList]
  | cons x xs =>
    simp only [minIntList]
    cases h : minIntList xs with
    | none => simp
    | some y => simp

lemma mem_availList {procs : List Process} {comp : List Nat} {t : Int} {i : Nat} {p : Process} :
    (i, p) ∈ availList procs comp t ↔
      procs[i]? = some p ∧ p.arrival_time ≤ t ∧ i ∉ comp := by
  simp only [availList, List.mem_filter, List.mk_mem_enum_iff_getElem?, Bool.and_eq_true,
    Bool.not_eq_true', decide_eq_true_eq, List.contains, List.elem_eq_mem,
    decide_eq_false_iff_not]

lemma mem_uncompletedArrivals {procs : List Process} {comp : List Nat} {a : Int} :
    a ∈ uncompletedArrivals procs comp ↔
      ∃ i p, procs[i]? = some p ∧ i ∉ comp ∧ p.arrival_time = a := by
  simp only [uncompletedArrivals, List.mem_map, List.mem_filter, Prod.exists,
    Bool.not_eq_true', List.contains, List.elem_eq_mem, decide_eq_false_iff_not,
    List.mk_mem_enum_iff_getElem?]
  constructor
  · rintro ⟨i, p, ⟨hp, hc⟩, ha⟩
    exact ⟨i, p, hp, hc, ha⟩
  · rintro ⟨i, p, hp, hc, ha⟩
    exact ⟨i, p, ⟨hp, hc⟩, ha⟩

lemma core_at {procs0 procs : List Process} (h : procs.map coreOf = procs0.map coreOf)
    {i : Nat} {p : Process} (hp : procs[i]? = some p) :
    ∃ p0, procs0[i]? = some p0 ∧ coreOf p0 = coreOf p := by
  have h2 : (procs.map coreOf)[i]? = (procs0.map coreOf)[i]? := by rw [h]
  rw [List.getElem?_map, List.getElem?_map, hp] at h2
  cases h0 : procs0[i]? with
  | none => rw [h0] at h2; simp at h2
  | some p0 =>
    rw [h0] at h2
    simp at h2
    exact ⟨p0, rfl, h2.symm⟩

lemma core_fields {p0 p : Process} (h : coreOf p0 = coreOf p) :
    p0.process_id = p.process_id ∧ p0.arrival_time = p.arrival_time ∧
    p0.burst_time = p.burst_time ∧ p0.priority = p.priority := by
  simp only [coreOf, Prod.mk.injEq] at h
  exact ⟨h.1, h.2.1, h.2.2.1, h.2.2.2⟩

lemma valid_at {procs0 procs : List Process} (hv : ValidInput procs0)
    (h : procs.map coreOf = procs0.map coreOf)
    {i : Nat} {p : Process} (hp : procs[i]? = some p) :
    0 < p.burst_time ∧ 0 ≤ p.arrival_time := by
  obtain ⟨p0, h0, hc⟩ := core_at h hp
  have hv0 := hv p0 (List.getElem?_mem h0)
  obtain ⟨-, ha, hb, -⟩ := core_fields hc
  exact ⟨hb ▸ hv0.2.1, ha ▸ hv0.1⟩

lemma burstAtD_set {procs : List Process} {i : Nat} {p p' : Process}
    (hp : procs[i]? = some p) (hb : p'.burst_time = p.burst_time) :
    ∀ j, burstAtD (procs.set i p') j = burstAtD procs j := by
  intro j
  by_cases hj : i = j
  · subst hj
    have hlen : i < procs.length := (List.getElem?_eq_some.mp hp).1
    rw [burstAtD, burstAtD, List.getElem?_set_eq_of_lt _ hlen, hp]
    simp [hb]
  · rw [burstAtD, burstAtD, List.getElem?_set_ne hj]

lemma range_map_burstAtD : ∀ l : List Process,
    (List.range l.length).map (burstAtD l) = l.map Process.burst_time := by
  intro l
  induction l with
  | nil => simp
  | cons p rest ih =>
    rw [List.length_cons, List.range_succ_eq_map, List.map_cons, List.map_map]
    have h1 : burstAtD (p :: rest) 0 = p.burst_time := by simp [burstAtD]
    have h2 : (burstAtD (p :: rest)) ∘ Nat.succ = burstAtD rest := by
      funext j
      simp [burstAtD, Function.comp]
    rw [h1, h2, ih]
    simp

/-- The loop invariant of the shared SJF/Priority loop, relative to the
original input `procs0`: the identity fields are untouched, the
completed indices are in range and duplicate-free, every completed
record satisfies the metric invariant, the Gantt list is a chain from 0
with non-negative durations, and the clock equals the idle time plus the
bursts of the completed processes. -/
structure NPInv (procs0 procs : List Process) (comp : List Nat) (st : SimState) : Prop where
  core_eq : procs.map coreOf = procs0.map coreOf
  comp_lt : ∀ i ∈ comp, i < procs.length
  comp_nodup : comp.Nodup
  comp_done : ∀ i p, i ∈ comp → procs[i]? = some p → MetricsOK p
  chain : ganttChain st.gantt 0 st.current_time
  mono : ∀ e ∈ st.gantt, e.start_time ≤ e.end_time
  acct : st.current_time = st.total_idle_time + (comp.map (burstAtD procs)).sum

lemma npInv_init (procs0 : List Process) :
    NPInv procs0 procs0 [] { gantt := [], current_time := 0, total_idle_time := 0 } := by
  refine ⟨rfl, ?_, ?_, ?_, ?_, ?_, ?_⟩ <;> simp [ganttChain]

lemma np_idle_inv (procs0 procs : List Process) (comp : List Nat) (st : SimState) (na : Int)
    (inv : NPInv procs0 procs comp st)
    (hav : availList procs comp st.current_time = [])
    (hna : minIntList (uncompletedArrivals procs comp) = some na) :
    st.current_time < na ∧
    NPInv procs0 procs comp
      { gantt := st.gantt ++ [⟨"IDLE", st.current_time, na⟩],
        current_time := na,
        total_idle_time := st.total_idle_time + (na - st.current_time) } := by
  obtain ⟨i, p, hp, hc, ha⟩ := mem_uncompletedArrivals.mp (minIntList_mem hna)
  have hgt : st.current_time < p.arrival_time := by
    by_contra hle
    push_neg at hle
    have hmem := mem_availList.mpr ⟨hp, hle, hc⟩
    rw [hav] at hmem
    simp at hmem
  have hlt : st.current_time < na := ha ▸ hgt
  refine ⟨hlt, inv.core_eq, inv.comp_lt, inv.comp_nodup, inv.comp_done, ?_, ?_, ?_⟩
  · exact ganttChain_append _ _ _ _ _ inv.chain
  · intro e he
    rcases List.mem_append.mp he with h0 | h0
    · exact inv.mono e h0
    · simp at h0
      subst h0
      simp
      omega
  · show na = st.total_idle_time + (na - st.current_time) + (comp.map (burstAtD procs)).sum
    have hacct := inv.acct
    omega

lemma np_run_inv (procs0 : List Process) (hv : ValidInput procs0)
    (procs : List Process) (comp : List Nat) (st : SimState) (i : Nat) (p : Process)
    (inv : NPInv procs0 procs comp st)
    (hsel : (i, p) ∈ availList procs comp st.current_time) :
    NPInv procs0
      (procs.set i { p with finish_time := st.current_time + p.burst_time,
                            turnaround_time := st.current_time + p.burst_time - p.arrival_time,
                            waiting_time := st.current_time + p.burst_time - p.arrival_time - p.burst_time })
      (comp ++ [i])
      { gantt := st.gantt ++ [⟨p.process_id, st.current_time, st.current_time + p.burst_time⟩],
        current_time := st.current_time + p.burst_time,
        total_idle_time := st.total_idle_time } := by
  obtain ⟨hp, harr, hc⟩ := mem_availList.mp hsel
  have hbpos : 0 < p.burst_time := (valid_at hv inv.core_eq hp).1
  have hlen : i < procs.length := (List.getElem?_eq_some.mp hp).1
  set p' : Process :=
    { p with finish_time := st.current_time + p.burst_time,
             turnaround_time := st.current_time + p.burst_time - p.arrival_time,
             waiting_time := st.current_time + p.burst_time - p.arrival_time - p.burst_time }
    with hpdef
  have hcore : coreOf p' = coreOf p := by simp [coreOf, hpdef]
  have hbat : ∀ j, burstAtD (procs.set i p') j = burstAtD procs j :=
    burstAtD_set hp (by simp [hpdef])
  refine ⟨?_, ?_, ?_, ?_, ?_, ?_, ?_⟩
  · have h1 : (procs.map coreOf).set i (coreOf p) = procs.map coreOf := by
      apply set_same
      rw [List.getElem?_map coreOf procs i, hp]
      rfl
    rw [List.map_set, hcore, h1]
    exact inv.core_eq
  · intro j hj
    rw [List.length_set]
    rcases List.mem_append.mp hj with hj0 | hj0
    · exact inv.comp_lt j hj0
    · simp at hj0
      subst hj0
      exact hlen
  · simp [List.nodup_append, inv.comp_nodup, hc]
  · intro j r hj hr
    rcases List.mem_append.mp hj with hj0 | hj0
    · have hne : i ≠ j := fun he => hc (he ▸ hj0)
      rw [List.getElem?_set_ne hne] at hr
      exact inv.comp_done j r hj0 hr
    · simp at hj0
      subst hj0
      rw [List.getElem?_set_eq_of_lt _ hlen] at hr
      injection hr with hr'
      subst hr'
      refine ⟨?_, ?_, ?_⟩ <;> simp [MetricsOK, hpdef]
      omega
  · exact ganttChain_append _ _ _ _ _ inv.chain
  · intro e he
    rcases List.mem_append.mp he with h0 | h0
    · exact inv.mono e h0
    · simp at h0
      subst h0
      simp
      omega
  · show st.current_time + p.burst_time =
      st.total_idle_time + ((comp ++ [i]).map (burstAtD (procs.set i p'))).sum
    have hacct := inv.acct
    have hmapc : (comp ++ [i]).map (burstAtD (procs.set i p')) =
        comp.map (burstAtD procs) ++ [p.burst_time] := by
      rw [List.map_append]
      congr 1
      · exact List.map_congr_left fun j _ => hbat j
      · rw [List.map_cons, List.map_nil, hbat i]
        simp [burstAtD, hp]
    rw [hmapc]
    simp
    omega

lemma np_final (procs0 procs : List Process) (comp : List Nat) (st : SimState)
    (inv : NPInv procs0 procs comp st) (hg : ¬ comp.length < procs.length) :
    procs.map coreOf = procs0.map coreOf ∧
    ganttChain st.gantt 0 st.current_time ∧
    (∀ e ∈ st.gantt, e.start_time ≤ e.end_time) ∧
    (∀ r ∈ procs, MetricsOK r) ∧
    st.current_time = st.total_idle_time + (procs.map Process.burst_time).sum := by
  have hsub : comp ⊆ List.range procs.length := by
    intro j hj
    exact List.mem_range.mpr (inv.comp_lt j hj)
  have hsp := List.subperm_of_subset inv.comp_nodup hsub
  have hperm : comp.Perm (List.range procs.length) := by
    apply hsp.perm_of_length_le
    simp
    omega
  refine ⟨inv.core_eq, inv.chain, inv.mono, ?_, ?_⟩
  · intro r hr
    obtain ⟨j, hj, hjr⟩ := List.mem_iff_getElem.mp hr
    have hj? : procs[j]? = some r := by
      rw [List.getElem?_eq_getElem hj, hjr]
    have hjc : j ∈ comp := hperm.mem_iff.mpr (List.mem_range.mpr hj)
    exact inv.comp_done j r hjc hj?
  · have hsum : (comp.map (burstAtD procs)).sum =
        ((List.range procs.length).map (burstAtD procs)).sum :=
      (hperm.map (burstAtD procs)).sum_eq
    have := inv.acct
    rw [hsum, range_map_burstAtD] at this
    exact this

lemma npLoop_stop (key : Process → Int × Int) (fuel : Nat) (procs : List Process)
    (comp : List Nat) (st : SimState) (hg : ¬ comp.length < procs.length) :
    npLoop key fuel procs comp st = some (procs, st) := by
  cases fuel <;> simp [npLoop, hg]

lemma npLoop_succ_idle (key : Process → Int × Int) (fuel : Nat) (procs : List Process)
    (comp : List Nat) (st : SimState) (na : Int)
    (hg : comp.length < procs.length)
    (hsel : minByKey (fun ip => key ip.2) (availList procs comp st.current_time) = none)
    (hna : minIntList (uncompletedArrivals procs comp) = some na) :
    npLoop key (fuel + 1) procs comp st =
      npLoop key fuel procs comp
        { gantt := st.gantt ++ [⟨"IDLE", st.current_time, na⟩],
          current_time := na,
          total_idle_time := st.total_idle_time + (na - st.current_time) } := by
  simp [npLoop, hg, hsel, hna]

lemma npLoop_succ_run (key : Process → Int × Int) (fuel : Nat) (procs : List Process)
    (comp : List Nat) (st : SimState) (i : Nat) (p : Process)
    (hg : comp.length < procs.length)
    (hsel : minByKey (fun ip => key ip.2) (availList procs comp st.current_time) = some (i, p)) :
    npLoop key (fuel + 1) procs comp st =
      npLoop key fuel
        (procs.set i { p with finish_time := st.current_time + p.burst_time,
                              turnaround_time := st.current_time + p.burst_time - p.arrival_time,
                              waiting_time := st.current_time + p.burst_time - p.arrival_time - p.burst_time })
        (comp ++ [i])
        { gantt := st.gantt ++ [⟨p.process_id, st.current_time, st.current_time + p.burst_time⟩],
          current_time := st.current_time + p.burst_time,
          total_idle_time := st.total_idle_time } := by
  simp [npLoop, hg, hsel]

lemma npLoop_succ_dead (key : Process → Int × Int) (fuel : Nat) (procs : List Process)
    (comp : List Nat) (st : SimState)
    (hg : comp.length < procs.length)
    (hsel : minByKey (fun ip => key ip.2) (availList procs comp st.current_time) = none)
    (hna : minIntList (uncompletedArrivals procs comp) = none) :
    npLoop key (fuel + 1) procs comp st = none := by
  simp [npLoop, hg, hsel, hna]

lemma npLoop_zero_run (key : Process → Int × Int) (procs : List Process)
    (comp : List Nat) (st : SimState) (hg : comp.length < procs.length) :
    npLoop key 0 procs comp st = none := by
  simp [npLoop, hg]

/-- Every successful run of the shared SJF/Priority loop started from a
state satisfying the invariant produces: untouched identity fields, a
contiguous Gantt chain from 0 with non-negative durations, the metric
invariant for every record, and the time accounting equation. -/
lemma npLoop_inv (key : Process → Int × Int) (procs0 : List Process) (hv : ValidInput procs0) :
    ∀ (fuel : Nat) (procs : List Process) (comp : List Nat) (st : SimState),
      NPInv procs0 procs comp st →
      ∀ out, npLoop key fuel procs comp st = some out →
        out.1.map coreOf = procs0.map coreOf ∧
        ganttChain out.2.gantt 0 out.2.current_time ∧
        (∀ e ∈ out.2.gantt, e.start_time ≤ e.end_time) ∧
        (∀ r ∈ out.1, MetricsOK r) ∧
        out.2.current_time = out.2.total_idle_time + (out.1.map Process.burst_time).sum := by
  intro fuel
  induction fuel with
  | zero =>
    intro procs comp st inv out h
    by_cases hg : comp.length < procs.length
    · rw [npLoop_zero_run key procs comp st hg] at h
      simp at h
    · rw [npLoop_stop key 0 procs comp st hg] at h
      injection h with h'
      subst h'
      exact np_final procs0 procs comp st inv hg
  | succ n ih =>
    intro procs comp st inv out h
    by_cases hg : comp.length < procs.length
    · cases hsel : minByKey (fun ip => key ip.2) (availList procs comp st.current_time) with
      | none =>
        cases hna : minIntList (uncompletedArrivals procs comp) with
        | none =>
          rw [npLoop_succ_dead key n procs comp st hg hsel hna] at h
          simp at h
        | some na =>
          rw [npLoop_succ_idle key n procs comp st na hg hsel hna] at h
          obtain ⟨-, inv'⟩ :=
            np_idle_inv procs0 procs comp st na inv (minByKey_eq_none.mp hsel) hna
          exact ih procs comp _ inv' out h
      | some ip =>
        obtain ⟨i, p⟩ := ip
        rw [npLoop_succ_run key n procs comp st i p hg hsel] at h
        have hmem : (i, p) ∈ availList procs comp st.current_time := minByKey_mem hsel
        have inv' := np_run_inv procs0 hv procs comp st i p inv hmem
        exact ih _ _ _ inv' out h
    · rw [npLoop_stop key (n + 1) procs comp st hg] at h
      injection h with h'
      subst h'
      exact np_final procs0 procs comp st inv hg

/-- The termination measure of the SJF/Priority loop: each iteration
either completes a process (decreasing the first term) or is an idle
step that makes the available set non-empty (decreasing the second). -/
def npMeasure (procs : List Process) (comp : List Nat) (t : Int) : Nat :=
  2 * (procs.length - comp.length) - (if availList procs comp t = [] then 0 else 1)

lemma np_uncompleted_ne (procs : List Process) (comp : List Nat)
    (inv_nodup : comp.Nodup) (inv_lt : ∀ i ∈ comp, i < procs.length)
    (hg : comp.length < procs.length) :
    ∃ na, minIntList (uncompletedArrivals procs comp) = some na := by
  obtain ⟨j, hj1, hj2⟩ : ∃ j, j < procs.length ∧ j ∉ comp := by
    by_contra hall
    push_neg at hall
    have hsub : List.range procs.length ⊆ comp := by
      intro j hj
      exact hall j (List.mem_range.mp hj)
    have hlen := (List.subperm_of_subset (List.nodup_range _) hsub).length_le
    simp at hlen
    omega
  have hmem : (procs.get ⟨j, hj1⟩).arrival_time ∈ uncompletedArrivals procs comp := by
    apply mem_uncompletedArrivals.mpr
    refine ⟨j, procs.get ⟨j, hj1⟩, ?_, hj2, rfl⟩
    simp [List.getElem?_eq_getElem hj1]
  cases hna : minIntList (uncompletedArrivals procs comp) with
  | none =>
    rw [minIntList_eq_none.mp hna] at hmem
    simp at hmem
  | some na => exact ⟨na, rfl⟩

/-- With fuel exceeding the measure, the SJF/Priority loop returns. -/
lemma npLoop_terminates (key : Process → Int × Int) (procs0 : List Process)
    (hv : ValidInput procs0) :
    ∀ (fuel : Nat) (procs : List Process) (comp : List Nat) (st : SimState),
      NPInv procs0 procs comp st →
      npMeasure procs comp st.current_time < fuel →
      (npLoop key fuel procs comp st).isSome := by
  intro fuel
  induction fuel with
  | zero =>
    intro procs comp st _ hm
    exact absurd hm (Nat.not_lt_zero _)
  | succ n ih =>
    intro procs comp st inv hm
    by_cases hg : comp.length < procs.length
    · cases hsel : minByKey (fun ip => key ip.2) (availList procs comp st.current_time) with
      | none =>
        have hav := minByKey_eq_none.mp hsel
        obtain ⟨na, hna⟩ := np_uncompleted_ne procs comp inv.comp_nodup inv.comp_lt hg
        rw [npLoop_succ_idle key n procs comp st na hg hsel hna]
        obtain ⟨-, inv'⟩ := np_idle_inv procs0 procs comp st na inv hav hna
        apply ih procs comp _ inv'
        obtain ⟨i, p, hp, hc, ha⟩ := mem_uncompletedArrivals.mp (minIntList_mem hna)
        have hnew : availList procs comp na ≠ [] := by
          intro h0
          have hmem := mem_availList.mpr ⟨hp, le_of_eq ha, hc⟩
          rw [h0] at hmem
          simp at hmem
        have hm_old : npMeasure procs comp st.current_time =
            2 * (procs.length - comp.length) := by
          simp [npMeasure, hav]
        have hm_new : npMeasure procs comp na =
            2 * (procs.length - comp.length) - 1 := by
          simp [npMeasure, hnew]
        show npMeasure procs comp na < n
        omega
      | some ip =>
        obtain ⟨i, p⟩ := ip
        rw [npLoop_succ_run key n procs comp st i p hg hsel]
        have hmem : (i, p) ∈ availList procs comp st.current_time := minByKey_mem hsel
        have inv' := np_run_inv procs0 hv procs comp st i p inv hmem
        refine ih _ _ _ inv' ?_
        have hne : availList procs comp st.current_time ≠ [] := by
          intro h0
          rw [h0] at hsel
          simp [minByKey] at hsel
        have hm_old : npMeasure procs comp st.current_time =
            2 * (procs.length - comp.length) - 1 := by
          simp [npMeasure, hne]
        have hb : ∀ (l : List Process) (c : List Nat) (t : Int), l.length = procs.length →
            c.length = comp.length + 1 → npMeasure l c t ≤ 2 * (procs.length - comp.length) - 2 := by
          intro l c t hl hc2
          calc npMeasure l c t ≤ 2 * (l.length - c.length) := Nat.sub_le _ _
            _ ≤ 2 * (procs.length - comp.length) - 2 := by rw [hl, hc2]; omega
        exact lt_of_le_of_lt (hb _ _ _ (by simp) (by simp)) (by omega)
    · rw [npLoop_stop key (n + 1) procs comp st hg]
      simp

lemma schedule_np_spec (key : Process → Int × Int) (ps : List Process) (hv : ValidInput ps)
    (fuel : Nat) (out : List Process × SimState)
    (hout : npLoop key fuel ps []
      { gantt := [], current_time := 0, total_idle_time := 0 } = some out) :
    GanttOK out.2.gantt out.2.current_time ∧
    (∀ r ∈ out.1, MetricsOK r) ∧
    (out.1.map coreOf).Perm (ps.map coreOf) ∧
    (out.1.map Process.burst_time).sum + out.2.total_idle_time = out.2.current_time ∧
    out.1.length = ps.length := by
  obtain ⟨h1, h2, h3, h4, h5⟩ := npLoop_inv key ps hv fuel ps []
    { gantt := [], current_time := 0, total_idle_time := 0 } (npInv_init ps) out hout
  refine ⟨ganttOK_of _ _ h2 h3, h4, ?_, by omega, length_of_map_core h1⟩
  rw [h1]

lemma schedule_sjf_eq (ps : List Process) (fuel : Nat) (r : ScheduleResult)
    (h : schedule_sjf ps fuel = some r) :
    ∃ out, npLoop sjfKey fuel ps [] { gantt := [], current_time := 0, total_idle_time := 0 } = some out ∧
      r.processes = out.1 ∧ r.gantt = out.2.gantt ∧ r.total_time = out.2.current_time ∧
      r.total_idle_time = out.2.total_idle_time := by
  unfold schedule_sjf at h
  cases hout : npLoop sjfKey fuel ps [] { gantt := [], current_time := 0, total_idle_time := 0 } with
  | none => rw [hout] at h; simp at h
  | some out =>
    rw [hout] at h
    simp at h
    exact ⟨out, rfl, by rw [h.symm]; rfl, by rw [h.symm]; rfl, by rw [h.symm]; rfl,
      by rw [h.symm]; rfl⟩

lemma schedule_priority_eq (ps : List Process) (fuel : Nat) (r : ScheduleResult)
    (h : schedule_priority ps fuel = some r) :
    ∃ out, npLoop priorityKey fuel ps [] { gantt := [], current_time := 0, total_idle_time := 0 } = some out ∧
      r.processes = out.1 ∧ r.gantt = out.2.gantt ∧ r.total_time = out.2.current_time ∧
      r.total_idle_time = out.2.total_idle_time := by
  unfold schedule_priority at h
  cases hout : npLoop priorityKey fuel ps [] { gantt := [], current_time := 0, total_idle_time := 0 } with
  | none => rw [hout] at h; simp at h
  | some out =>
    rw [hout] at h
    simp at h
    exact ⟨out, rfl, by rw [h.symm]; rfl, by rw [h.symm]; rfl, by rw [h.symm]; rfl,
      by rw [h.symm]; rfl⟩

lemma enqueueArrivedAux_spec (pcs : List Process) (t : Int) :
    ∀ (k idx : Nat) (queue : List Nat), pcs.length - idx ≤ k → idx ≤ pcs.length →
      ∃ m, enqueueArrivedAux pcs t k idx queue = (idx + m, queue ++ List.range' idx m) ∧
        idx + m ≤ pcs.length ∧
        (∀ j p, idx ≤ j → j < idx + m → pcs[j]? = some p → p.arrival_time ≤ t) ∧
        (∀ p, pcs[idx + m]? = some p → t < p.arrival_time) := by
  intro k
  induction k with
  | zero =>
    intro idx queue hk hle
    have hidx : idx = pcs.length := by omega
    refine ⟨0, by simp [enqueueArrivedAux], by omega, by omega, ?_⟩
    intro p hp
    rw [List.getElem?_eq_none (by omega)] at hp
    simp at hp
  | succ k ih =>
    intro idx queue hk hle
    cases hp : pcs[idx]? with
    | none =>
      have hidx : pcs.length ≤ idx := by
        by_contra hlt
        push_neg at hlt
        rw [List.getElem?_eq_getElem hlt] at hp
        simp at hp
      refine ⟨0, by simp [enqueueArrivedAux, hp], by omega, by omega, ?_⟩
      intro p hp2
      rw [(by omega : idx + 0 = idx), hp] at hp2
      simp at hp2
    | some p =>
      have hlt : idx < pcs.length := (List.getElem?_eq_some.mp hp).1
      by_cases harr : p.arrival_time ≤ t
      · obtain ⟨m, hm1, hm2, hm3, hm4⟩ := ih (idx + 1) (queue ++ [idx]) (by omega) (by omega)
        refine ⟨m + 1, ?_, by omega, ?_, ?_⟩
        · simp only [enqueueArrivedAux, hp]
          rw [if_pos harr, hm1, List.range'_succ idx m 1]
          simp
          omega
        · intro j r hj1 hj2 hr
          by_cases hje : j = idx
          · subst hje
            rw [hp] at hr
            injection hr with hr'
            subst hr'
            exact harr
          · exact hm3 j r (by omega) (by omega) hr
        · intro r hr
          exact hm4 r (by rwa [(by omega : idx + 1 + m = idx + (m + 1))])
      · refine ⟨0, ?_, by omega, by omega, ?_⟩
        · simp only [enqueueArrivedAux, hp]
          rw [if_neg harr]
          simp
        · intro r hr
          rw [(by omega : idx + 0 = idx), hp] at hr
          injection hr with hr'
          subst hr'
          omega

lemma enqueueArrived_spec (pcs : List Process) (t : Int) (idx : Nat) (queue : List Nat)
    (hle : idx ≤ pcs.length) :
    ∃ m, enqueueArrived pcs t idx queue = (idx + m, queue ++ List.range' idx m) ∧
      idx + m ≤ pcs.length ∧
      (∀ j p, idx ≤ j → j < idx + m → pcs[j]? = some p → p.arrival_time ≤ t) ∧
      (∀ p, pcs[idx + m]? = some p → t < p.arrival_time) :=
  enqueueArrivedAux_spec pcs t (pcs.length - idx) idx queue (le_refl _) hle

/-- Ceiling division on naturals. -/
def cdiv (a b : Nat) : Nat := (a + b - 1) / b

lemma cdiv_zero_left (b : Nat) (hb : 0 < b) : cdiv 0 b = 0 := by
  unfold cdiv
  rw [Nat.zero_add]
  exact Nat.div_eq_of_lt (by omega)

lemma cdiv_eq_one (a b : Nat) (ha : 0 < a) (hab : a ≤ b) : cdiv a b = 1 := by
  unfold cdiv
  exact Nat.div_eq_of_lt_le (by omega) (by omega)

lemma cdiv_sub_self (a b : Nat) (hb : 0 < b) (hab : b ≤ a) :
    cdiv (a - b) b = cdiv a b - 1 := by
  unfold cdiv
  have h1 : a - b + b - 1 = a - 1 := by omega
  have h2 : a + b - 1 = (a - 1) + b := by omega
  rw [h1, h2, Nat.add_div_right _ hb]
  exact (Nat.succ_sub_one _).symm

lemma cdiv_pos (a b : Nat) (ha : 0 < a) (hb : 0 < b) : 0 < cdiv a b := by
  unfold cdiv
  have h := (Nat.one_le_div_iff hb).mpr (show b ≤ a + b - 1 by omega)
  omega

lemma cdiv_le_div_succ (a b : Nat) (hb : 0 < b) : cdiv a b ≤ a / b + 1 := by
  unfold cdiv
  calc (a + b - 1) / b ≤ (a + b) / b := Nat.div_le_div_right (by omega)
    _ = a / b + 1 := Nat.add_div_right a hb

lemma sum_map_set_nat {α : Type} (f : α → Nat) : ∀ (l : List α) (i : Nat) (x p : α),
    l[i]? = some p → ((l.set i x).map f).sum + f p = (l.map f).sum + f x := by
  intro l
  induction l with
  | nil => intro i x p h; simp at h
  | cons a rest ih =>
    intro i x p h
    cases i with
    | zero =>
      simp only [List.getElem?_cons_zero, Option.some_inj] at h
      subst h
      simp only [List.set_cons_zero, List.map_cons, List.sum_cons]
      omega
    | succ j =>
      simp only [List.getElem?_cons_succ] at h
      have hih := ih j x p h
      simp only [List.set_cons_succ, List.map_cons, List.sum_cons]
      omega

lemma sum_map_set_int (f : Process → Int) : ∀ (l : List Process) (i : Nat) (x p : Process),
    l[i]? = some p → ((l.set i x).map f).sum = (l.map f).sum - f p + f x := by
  intro l
  induction l with
  | nil => intro i x p h; simp at h
  | cons a rest ih =>
    intro i x p h
    cases i with
    | zero =>
      simp only [List.getElem?_cons_zero, Option.some_inj] at h
      subst h
      simp only [List.set_cons_zero, List.map_cons, List.sum_cons]
      omega
    | succ j =>
      simp only [List.getElem?_cons_succ] at h
      have hih := ih j x p h
      simp only [List.set_cons_succ, List.map_cons, List.sum_cons]
      omega

lemma elem_le_sum_nat {α : Type} (f : α → Nat) : ∀ (l : List α) (i : Nat) (p : α),
    l[i]? = some p → f p ≤ (l.map f).sum := by
  intro l
  induction l with
  | nil => intro i p h; simp at h
  | cons a rest ih =>
    intro i p h
    cases i with
    | zero =>
      simp only [List.getElem?_cons_zero, Option.some_inj] at h
      subst h
      simp only [List.map_cons, List.sum_cons]
      omega
    | succ j =>
      simp only [List.getElem?_cons_succ] at h
      have hih := ih j p h
      simp only [List.map_cons, List.sum_cons]
      omega

lemma sorted_arr_mono {pcs : List Process}
    (hs : List.Pairwise (fun a b => a ≤ b) (pcs.map Process.arrival_time))
    {i j : Nat} {p r : Process} (hij : i ≤ j) (hp : pcs[i]? = some p) (hr : pcs[j]? = some r) :
    p.arrival_time ≤ r.arrival_time := by
  rcases eq_or_lt_of_le hij with rfl | hlt
  · rw [hp] at hr
    injection hr with h
    rw [h]
  · obtain ⟨hi, hpe⟩ := List.getElem?_eq_some.mp hp
    obtain ⟨hj, hre⟩ := List.getElem?_eq_some.mp hr
    have h2 := List.pairwise_iff_getElem.mp hs i j (by simpa using hi) (by simpa using hj) hlt
    rw [List.getElem_map, List.getElem_map] at h2
    rw [hpe, hre] at h2
    exact h2

/-- The loop invariant of `schedule_rr`'s main loop, relative to the
initial sorted private copy `pcs0` and a positive quantum: the identity
fields and the arrival-sorted order are preserved; queue members are in
range of the already-admitted prefix, duplicate-free, have positive
remaining time and have been executed for at most the time elapsed since
their arrival; not-yet-admitted records are untouched, and arrive
strictly in the future whenever the queue is empty; every admitted index
is queued or finished; the completed count plus the queue length equals
the admitted count; finished records satisfy the metric invariant; the
Gantt list is a chain from 0 with non-negative durations; and the clock
equals idle time plus total executed time. -/
structure RRInv (pcs0 : List Process) (s : RRState) : Prop where
  core_eq : s.pcs.map coreOf = pcs0.map coreOf
  sorted : List.Pairwise (fun a b => a ≤ b) (s.pcs.map Process.arrival_time)
  idx_le : s.process_index ≤ s.pcs.length
  q_lt_idx : ∀ i ∈ s.ready_queue, i < s.process_index
  q_nodup : s.ready_queue.Nodup
  q_rem : ∀ (i : Nat) (p : Process), i ∈ s.ready_queue → s.pcs[i]? = some p →
    0 < p.remaining_time ∧
    p.arrival_time + (p.burst_time - p.remaining_time) ≤ s.current_time
  pend : ∀ (i : Nat) (p : Process), s.process_index ≤ i → s.pcs[i]? = some p →
    p.remaining_time = p.burst_time
  pend_arr : s.ready_queue = [] → ∀ (i : Nat) (p : Process), s.process_index ≤ i →
    s.pcs[i]? = some p → s.current_time < p.arrival_time
  part : ∀ (i : Nat) (p : Process), i < s.process_index → s.pcs[i]? = some p →
    i ∈ s.ready_queue ∨ p.remaining_time = 0
  count : s.completedCount + s.ready_queue.length = s.process_index
  done_ok : ∀ (i : Nat) (p : Process), s.pcs[i]? = some p → p.remaining_time = 0 → MetricsOK p
  rem_bounds : ∀ p ∈ s.pcs, 0 ≤ p.remaining_time ∧ p.remaining_time ≤ p.burst_time
  chain : ganttChain s.gantt 0 s.current_time
  mono : ∀ e ∈ s.gantt, e.start_time ≤ e.end_time
  acct : s.current_time = s.total_idle_time +
    ((s.pcs.map fun p => p.burst_time - p.remaining_time).sum)

/-- Validity of the RR private copy: positive bursts, non-negative
arrivals, remaining time initially equal to the burst. -/
def RRValid (pcs0 : List Process) : Prop :=
  ∀ p ∈ pcs0, 0 < p.burst_time ∧ 0 ≤ p.arrival_time

lemma rr_valid_at {pcs0 pcs : List Process} (hv : RRValid pcs0)
    (h : pcs.map coreOf = pcs0.map coreOf)
    {i : Nat} {p : Process} (hp : pcs[i]? = some p) :
    0 < p.burst_time ∧ 0 ≤ p.arrival_time := by
  obtain ⟨p0, h0, hc⟩ := core_at h hp
  have hv0 := hv p0 (List.getElem?_mem h0)
  obtain ⟨-, ha, hb, -⟩ := core_fields hc
  exact ⟨hb ▸ hv0.1, ha ▸ hv0.2⟩

lemma rrInit_pcs (ps : List Process) :
    (rrInit ps).pcs = sortByArrival (ps.map Process.copy) := by
  unfold rrInit
  cases h : sortByArrival (ps.map Process.copy) with
  | nil => simp [h]
  | cons p rest => by_cases ha : p.arrival_time ≤ 0 <;> simp [h, ha]

lemma sortByArrival_sorted (l : List Process) :
    List.Pairwise (fun a b => a ≤ b) ((sortByArrival l).map Process.arrival_time) := by
  rw [List.pairwise_map]
  exact List.sorted_insertionSort _ l

lemma rrInit_copy_facts (ps : List Process) (hv : ValidInput ps) :
    RRValid (sortByArrival (ps.map Process.copy)) ∧
    (∀ p ∈ sortByArrival (ps.map Process.copy), p.remaining_time = p.burst_time) := by
  have hmem : ∀ p ∈ sortByArrival (ps.map Process.copy), ∃ p1 ∈ ps, p = p1.copy := by
    intro p hp
    have hp2 := (sortByArrival_perm (ps.map Process.copy)).mem_iff.mp hp
    obtain ⟨p1, hp1, he⟩ := List.mem_map.mp hp2
    exact ⟨p1, hp1, he.symm⟩
  constructor
  · intro p hp
    obtain ⟨p1, hp1, rfl⟩ := hmem p hp
    have h1 := hv p1 hp1
    exact ⟨h1.2.1, h1.1⟩
  · intro p hp
    obtain ⟨p1, hp1, rfl⟩ := hmem p hp
    have h1 := hv p1 hp1
    show p1.remaining_time = p1.burst_time
    exact h1.2.2

lemma rrInv_start (pcs0 : List Process) (hval : RRValid pcs0)
    (hrem : ∀ p ∈ pcs0, p.remaining_time = p.burst_time)
    (hsorted : List.Pairwise (fun a b => a ≤ b) (pcs0.map Process.arrival_time))
    (queue : List Nat) (idx : Nat)
    (hcase : (∃ p rest, pcs0 = p :: rest ∧ p.arrival_time ≤ 0 ∧ queue = [0] ∧ idx = 1) ∨
      ((pcs0 = [] ∨ ∃ p rest, pcs0 = p :: rest ∧ 0 < p.arrival_time) ∧
        queue = [] ∧ idx = 0)) :
    RRInv pcs0 { pcs := pcs0, ready_queue := queue, completedCount := 0, process_index := idx,
                 gantt := [], current_time := 0, total_idle_time := 0 } := by
  have hrem? : ∀ (i : Nat) (p : Process), pcs0[i]? = some p →
      p.remaining_time = p.burst_time := fun i p hp => hrem p (List.getElem?_mem hp)
  have hval? : ∀ (i : Nat) (p : Process), pcs0[i]? = some p →
      0 < p.burst_time ∧ 0 ≤ p.arrival_time := fun i p hp => hval p (List.getElem?_mem hp)
  have hsum0 : (pcs0.map fun p => p.burst_time - p.remaining_time).sum = 0 := by
    apply List.sum_eq_zero
    intro x hx
    obtain ⟨p, hp, he⟩ := List.mem_map.mp hx
    rw [hrem p hp] at he
    omega
  rcases hcase with ⟨p, rest, hp0, ha, hq, hi⟩ | ⟨hshape, hq, hi⟩
  · subst hq
    subst hi
    refine ⟨rfl, hsorted, ?_, ?_, ?_, ?_, ?_, ?_, ?_, ?_, ?_, ?_, rfl, ?_, ?_⟩
    · show 1 ≤ pcs0.length
      rw [hp0]
      simp
    · intro i hi
      simp at hi
      show i < 1
      omega
    · simp
    · intro i r hi hr
      simp at hi
      subst hi
      rw [hp0] at hr
      simp at hr
      subst hr
      have h1 := hrem? 0 p (by rw [hp0]; simp)
      have h2 := hval? 0 p (by rw [hp0]; simp)
      constructor
      · omega
      · show p.arrival_time + (p.burst_time - p.remaining_time) ≤ 0
        omega
    · intro i r _ hr
      exact hrem? i r hr
    · intro he
      simp at he
    · intro i r hi _
      left
      have hi1 : i < 1 := hi
      show i ∈ [0]
      simp
      omega
    · simp
    · intro i r hr h0
      have h1 := hrem? i r hr
      have h2 := hval? i r hr
      omega
    · intro r hr
      have h1 := hrem r hr
      have h2 := hval r hr
      omega
    · intro e he
      simp at he
    · show (0 : Int) = 0 + (pcs0.map fun p => p.burst_time - p.remaining_time).sum
      omega
  · subst hq
    subst hi
    refine ⟨rfl, hsorted, ?_, ?_, ?_, ?_, ?_, ?_, ?_, ?_, ?_, ?_, rfl, ?_, ?_⟩
    · show 0 ≤ pcs0.length
      omega
    · intro i hi
      simp at hi
    · simp
    · intro i r hi _
      simp at hi
    · intro i r _ hr
      exact hrem? i r hr
    · intro _ i r _ hr
      show (0 : Int) < r.arrival_time
      rcases hshape with hnil | ⟨p, rest, hp0, ha⟩
      · rw [hnil] at hr
        simp at hr
      · have hp? : pcs0[0]? = some p := by rw [hp0]; simp
        have := sorted_arr_mono hsorted (Nat.zero_le i) hp? hr
        omega
    · intro i r hi _
      have hi0 : i < 0 := hi
      exact absurd hi0 (Nat.not_lt_zero i)
    · simp
    · intro i r hr h0
      have h1 := hrem? i r hr
      have h2 := hval? i r hr
      omega
    · intro r hr
      have h1 := hrem r hr
      have h2 := hval r hr
      omega
    · intro e he
      simp at he
    · show (0 : Int) = 0 + (pcs0.map fun p => p.burst_time - p.remaining_time).sum
      omega

lemma rrInit_inv (ps : List Process) (hv : ValidInput ps) :
    RRInv (rrInit ps).pcs (rrInit ps) := by
  obtain ⟨hval, hrem⟩ := rrInit_copy_facts ps hv
  have hsorted := sortByArrival_sorted (ps.map Process.copy)
  unfold rrInit
  cases h : sortByArrival (ps.map Process.copy) with
  | nil =>
    rw [h] at hval hrem hsorted
    simp only []
    exact rrInv_start [] hval hrem hsorted [] 0 (Or.inr ⟨Or.inl rfl, rfl, rfl⟩)
  | cons p rest =>
    rw [h] at hval hrem hsorted
    by_cases ha : p.arrival_time ≤ 0
    · simp only [ha, if_true]
      exact rrInv_start (p :: rest) hval hrem hsorted [0] 1
        (Or.inl ⟨p, rest, rfl, ha, rfl, rfl⟩)
    · simp only [ha, if_false]
      exact rrInv_start (p :: rest) hval hrem hsorted [] 0
        (Or.inr ⟨Or.inr ⟨p, rest, rfl, by omega⟩, rfl, rfl⟩)

/-- The RR termination measure: the total number of quantum-turns still
needed, `Σ ⌈remaining/quantum⌉`; every loop iteration decreases it by
exactly one. -/
def rrMeasure (q : Int) (s : RRState) : Nat :=
  (s.pcs.map fun p => cdiv p.remaining_time.toNat q.toNat).sum

lemma rrRunStep_spec (q : Int) (pcs0 : List Process) (hv : RRValid pcs0) (hq : 0 < q)
    (s : RRState) (inv : RRInv pcs0 s) (c : Nat) (rest : List Nat)
    (hqe : s.ready_queue = c :: rest) :
    ∃ s', rrRunStep q s = some s' ∧ RRInv pcs0 s' ∧
      s'.pcs.length = s.pcs.length ∧ rrMeasure q s' < rrMeasure q s := by
  have hcq : c ∈ s.ready_queue := by rw [hqe]; simp
  have hc_idx : c < s.process_index := inv.q_lt_idx c hcq
  have hc_lt : c < s.pcs.length := lt_of_lt_of_le hc_idx inv.idx_le
  obtain ⟨cur, hc⟩ : ∃ cur, s.pcs[c]? = some cur :=
    ⟨s.pcs.get ⟨c, hc_lt⟩, by simp [List.getElem?_eq_getElem hc_lt]⟩
  obtain ⟨hrem_pos, hrun_le⟩ := inv.q_rem c cur hcq hc
  have hvc := rr_valid_at hv inv.core_eq hc
  have hrb := inv.rem_bounds cur (List.getElem?_mem hc)
  have hexec_pos : 0 < min q cur.remaining_time := lt_min hq hrem_pos
  have hexec_le : min q cur.remaining_time ≤ cur.remaining_time := min_le_right _ _
  have hqrest : rest.Nodup ∧ c ∉ rest := by
    have h0 := inv.q_nodup
    rw [hqe] at h0
    simp only [List.nodup_cons] at h0
    exact ⟨h0.2, h0.1⟩
  have hrest_q : ∀ i ∈ rest, i ∈ s.ready_queue := by
    intro i hi
    rw [hqe]
    exact List.mem_cons_of_mem c hi
  simp only [rrRunStep, hqe, hc]
  set exec := min q cur.remaining_time with hexec_def
  set t2 := s.current_time + exec with ht2_def
  set rem2 := cur.remaining_time - exec with hrem2_def
  set pcs2 := s.pcs.set c { cur with remaining_time := rem2 } with hpcs2_def
  have ht2_gt : s.current_time < t2 := by omega
  have hrem2_ge : 0 ≤ rem2 := by omega
  have hrem2_lt : rem2 < cur.remaining_time := by omega
  have hlen2 : pcs2.length = s.pcs.length := by rw [hpcs2_def]; exact List.length_set _ _ _
  have hpcs2_c : pcs2[c]? = some { cur with remaining_time := rem2 } := by
    rw [hpcs2_def]
    exact List.getElem?_set_eq_of_lt _ hc_lt
  have hpcs2_ne : ∀ j : Nat, j ≠ c → pcs2[j]? = s.pcs[j]? := by
    intro j hj
    rw [hpcs2_def]
    exact List.getElem?_set_ne (fun he => hj he.symm)
  have hcore2 : pcs2.map coreOf = pcs0.map coreOf := by
    rw [hpcs2_def, List.map_set]
    have h1 : coreOf { cur with remaining_time := rem2 } = coreOf cur := by simp [coreOf]
    rw [h1]
    have h2 : (s.pcs.map coreOf).set c (coreOf cur) = s.pcs.map coreOf := by
      apply set_same
      rw [List.getElem?_map, hc]
      rfl
    rw [h2]
    exact inv.core_eq
  have hsort2 : List.Pairwise (fun a b => a ≤ b) (pcs2.map Process.arrival_time) := by
    have h1 : pcs2.map Process.arrival_time = s.pcs.map Process.arrival_time := by
      rw [hpcs2_def, List.map_set]
      apply set_same
      rw [List.getElem?_map, hc]
      rfl
    rw [h1]
    exact inv.sorted
  obtain ⟨m, heam, hm_le, hm_arr, hm_bound⟩ :=
    enqueueArrived_spec pcs2 t2 s.process_index rest (by rw [hlen2]; exact inv.idx_le)
  have hrange_lt : ∀ i ∈ List.range' s.process_index m, s.process_index ≤ i ∧ i < s.process_index + m := by
    intro i hi
    exact List.mem_range'_1.mp hi
  have hsum_acct : ((s.pcs.set c { cur with remaining_time := rem2 }).map
      fun p => p.burst_time - p.remaining_time).sum =
      ((s.pcs.map fun p => p.burst_time - p.remaining_time).sum
        - (cur.burst_time - cur.remaining_time)) + (cur.burst_time - rem2) :=
    sum_map_set_int (fun p => p.burst_time - p.remaining_time) s.pcs c
      { cur with remaining_time := rem2 } cur hc
  have hsum_meas : ((s.pcs.set c { cur with remaining_time := rem2 }).map
      fun p => cdiv p.remaining_time.toNat q.toNat).sum
        + cdiv cur.remaining_time.toNat q.toNat =
      (s.pcs.map fun p => cdiv p.remaining_time.toNat q.toNat).sum + cdiv rem2.toNat q.toNat :=
    sum_map_set_nat (fun p => cdiv p.remaining_time.toNat q.toNat) s.pcs c
      { cur with remaining_time := rem2 } cur hc
  by_cases hrem2p : 0 < rem2
  · rw [if_pos hrem2p]
    have hminq : exec = q := by
      rw [hexec_def]
      rcases le_total q cur.remaining_time with h | h
      · exact min_eq_left h
      · exfalso
        rw [hexec_def] at hrem2_def
        rw [min_eq_right h] at hrem2_def
        omega
    refine ⟨{ pcs := pcs2,
              ready_queue := (rest ++ List.range' s.process_index m) ++ [c],
              completedCount := s.completedCount,
              process_index := s.process_index + m,
              gantt := s.gantt ++ [⟨cur.process_id, s.current_time, t2⟩],
              current_time := t2, total_idle_time := s.total_idle_time }, ?_, ?_, ?_, ?_⟩
    · rw [heam]
    · refine ⟨hcore2, hsort2, ?_, ?_, ?_, ?_, ?_, ?_, ?_, ?_, ?_, ?_, ?_, ?_, ?_⟩
      · show s.process_index + m ≤ pcs2.length
        exact hm_le
      · intro i hi
        replace hi : i ∈ (rest ++ List.range' s.process_index m) ++ [c] := hi
        show i < s.process_index + m
        rcases List.mem_append.mp hi with hi | hi
        · rcases List.mem_append.mp hi with hi | hi
          · have := inv.q_lt_idx i (hrest_q i hi)
            omega
          · have := hrange_lt i hi
            omega
        · simp at hi
          omega
      · show ((rest ++ List.range' s.process_index m) ++ [c]).Nodup
        apply List.Nodup.append
        · apply List.Nodup.append hqrest.1 (List.nodup_range' _ _)
          intro i hi hi2
          have h1 := inv.q_lt_idx i (hrest_q i hi)
          have h2 := (hrange_lt i hi2).1
          omega
        · simp
        · intro i hi hi2
          simp at hi2
          subst hi2
          rcases List.mem_append.mp hi with hi | hi
          · exact hqrest.2 hi
          · have := (hrange_lt i hi).1
            omega
      · intro i r hi hr
        replace hi : i ∈ (rest ++ List.range' s.process_index m) ++ [c] := hi
        replace hr : pcs2[i]? = some r := hr
        show 0 < r.remaining_time ∧ r.arrival_time + (r.burst_time - r.remaining_time) ≤ t2
        rcases List.mem_append.mp hi with hi | hi
        · rcases List.mem_append.mp hi with hi | hi
          · have hne : i ≠ c := fun he => hqrest.2 (he ▸ hi)
            rw [hpcs2_ne i hne] at hr
            obtain ⟨h1, h2⟩ := inv.q_rem i r (hrest_q i hi) hr
            omega
          · obtain ⟨h1, h2⟩ := hrange_lt i hi
            have hne : i ≠ c := by omega
            have hpr : s.pcs[i]? = some r := by rw [← hpcs2_ne i hne]; exact hr
            have hpend := inv.pend i r h1 hpr
            have hval2 := rr_valid_at hv inv.core_eq hpr
            have harr := hm_arr i r h1 h2 hr
            omega
        · simp at hi
          subst hi
          rw [hpcs2_c] at hr
          injection hr with hr2
          subst hr2
          refine ⟨hrem2p, ?_⟩
          show cur.arrival_time + (cur.burst_time - rem2) ≤ t2
          omega
      · intro i r hi hr
        replace hi : s.process_index + m ≤ i := hi
        replace hr : pcs2[i]? = some r := hr
        have hne : i ≠ c := by omega
        rw [hpcs2_ne i hne] at hr
        exact inv.pend i r (by omega) hr
      · intro he
        replace he : (rest ++ List.range' s.process_index m) ++ [c] = [] := he
        simp at he
      · intro i r hi hr
        replace hi : i < s.process_index + m := hi
        replace hr : pcs2[i]? = some r := hr
        show i ∈ (rest ++ List.range' s.process_index m) ++ [c] ∨ r.remaining_time = 0
        by_cases hic : i = c
        · subst hic
          left
          simp
        · rw [hpcs2_ne i hic] at hr
          by_cases hidx : i < s.process_index
          · rcases inv.part i r hidx hr with hin | h0
            · rw [hqe] at hin
              rcases List.mem_cons.mp hin with he | he
              · exact absurd he hic
              · left
                simp [he]
            · right
              exact h0
          · left
            simp only [List.mem_append]
            left
            right
            rw [List.mem_range'_1]
            omega
      · show s.completedCount + ((rest ++ List.range' s.process_index m) ++ [c]).length =
          s.process_index + m
        have hcount := inv.count
        rw [hqe] at hcount
        simp only [List.length_append, List.length_cons, List.length_range',
          List.length_nil] at hcount ⊢
        omega
      · intro i r hr h0
        replace hr : pcs2[i]? = some r := hr
        by_cases hic : i = c
        · subst hic
          rw [hpcs2_c] at hr
          injection hr with hr2
          subst hr2
          simp at h0
          omega
        · rw [hpcs2_ne i hic] at hr
          exact inv.done_ok i r hr h0
      · intro r hr
        replace hr : r ∈ pcs2 := hr
        rw [hpcs2_def] at hr
        rcases List.mem_or_eq_of_mem_set hr with h1 | h1
        · exact inv.rem_bounds r h1
        · subst h1
          show 0 ≤ rem2 ∧ rem2 ≤ cur.burst_time
          omega
      · show ganttChain (s.gantt ++ [⟨cur.process_id, s.current_time, t2⟩]) 0 t2
        exact ganttChain_append _ _ _ _ _ inv.chain
      · intro e he
        replace he : e ∈ s.gantt ++ [⟨cur.process_id, s.current_time, t2⟩] := he
        rcases List.mem_append.mp he with h1 | h1
        · exact inv.mono e h1
        · simp at h1
          subst h1
          simp
          omega
      · show t2 = s.total_idle_time + (pcs2.map fun p => p.burst_time - p.remaining_time).sum
        have hacct := inv.acct
        rw [hpcs2_def, hsum_acct]
        omega
    · show pcs2.length = s.pcs.length
      exact hlen2
    · show (pcs2.map fun p => cdiv p.remaining_time.toNat q.toNat).sum <
        (s.pcs.map fun p => cdiv p.remaining_time.toNat q.toNat).sum
      rw [hpcs2_def]
      have hq1 : 0 < q.toNat := by omega
      have hr1 : q.toNat ≤ cur.remaining_time.toNat := by omega
      have hcd : cdiv rem2.toNat q.toNat = cdiv cur.remaining_time.toNat q.toNat - 1 := by
        have h1 : rem2.toNat = cur.remaining_time.toNat - q.toNat := by omega
        rw [h1]
        exact cdiv_sub_self _ _ hq1 hr1
      have hpos := cdiv_pos cur.remaining_time.toNat q.toNat (by omega) hq1
      omega
  · rw [if_neg hrem2p]
    have hrem20 : rem2 = 0 := by omega
    have hexec_rem : exec = cur.remaining_time := by omega
    set done : Process :=
      { cur with remaining_time := rem2, finish_time := t2,
                 turnaround_time := t2 - cur.arrival_time,
                 waiting_time := (t2 - cur.arrival_time) - cur.burst_time } with hdone_def
    have hpcs3 : pcs2.set c done = s.pcs.set c done := by
      rw [hpcs2_def]
      exact List.set_set _ _ _ _
    have hpcs3_c : (s.pcs.set c done)[c]? = some done :=
      List.getElem?_set_eq_of_lt _ hc_lt
    have hpcs3_ne : ∀ j : Nat, j ≠ c → (s.pcs.set c done)[j]? = s.pcs[j]? := by
      intro j hj
      exact List.getElem?_set_ne (fun he => hj he.symm)
    have hcore3 : (s.pcs.set c done).map coreOf = pcs0.map coreOf := by
      rw [List.map_set]
      have h1 : coreOf done = coreOf cur := by simp [coreOf, hdone_def]
      rw [h1]
      have h2 : (s.pcs.map coreOf).set c (coreOf cur) = s.pcs.map coreOf := by
        apply set_same
        rw [List.getElem?_map, hc]
        rfl
      rw [h2]
      exact inv.core_eq
    have hsort3 : List.Pairwise (fun a b => a ≤ b)
        ((s.pcs.set c done).map Process.arrival_time) := by
      have h1 : (s.pcs.set c done).map Process.arrival_time =
          s.pcs.map Process.arrival_time := by
        rw [List.map_set]
        apply set_same
        rw [List.getElem?_map, hc]
        rfl
      rw [h1]
      exact inv.sorted
    have hdone_ok : MetricsOK done := by
      refine ⟨?_, ?_, ?_⟩ <;> simp only [MetricsOK, hdone_def]
      omega
    have hsum_acct2 : ((s.pcs.set c done).map fun p => p.burst_time - p.remaining_time).sum =
        ((s.pcs.map fun p => p.burst_time - p.remaining_time).sum
          - (cur.burst_time - cur.remaining_time)) + (cur.burst_time - rem2) :=
      sum_map_set_int (fun p => p.burst_time - p.remaining_time) s.pcs c done cur hc
    have hsum_meas2 : ((s.pcs.set c done).map fun p => cdiv p.remaining_time.toNat q.toNat).sum
          + cdiv cur.remaining_time.toNat q.toNat =
        (s.pcs.map fun p => cdiv p.remaining_time.toNat q.toNat).sum
          + cdiv rem2.toNat q.toNat :=
      sum_map_set_nat (fun p => cdiv p.remaining_time.toNat q.toNat) s.pcs c done cur hc
    refine ⟨{ pcs := s.pcs.set c done,
              ready_queue := rest ++ List.range' s.process_index m,
              completedCount := s.completedCount + 1,
              process_index := s.process_index + m,
              gantt := s.gantt ++ [⟨cur.process_id, s.current_time, t2⟩],
              current_time := t2, total_idle_time := s.total_idle_time }, ?_, ?_, ?_, ?_⟩
    · rw [heam, hpcs3]
    · refine ⟨hcore3, hsort3, ?_, ?_, ?_, ?_, ?_, ?_, ?_, ?_, ?_, ?_, ?_, ?_, ?_⟩
      · show s.process_index + m ≤ (s.pcs.set c done).length
        rw [List.length_set]
        omega
      · intro i hi
        replace hi : i ∈ rest ++ List.range' s.process_index m := hi
        show i < s.process_index + m
        rcases List.mem_append.mp hi with hi | hi
        · have := inv.q_lt_idx i (hrest_q i hi)
          omega
        · have := hrange_lt i hi
          omega
      · show (rest ++ List.range' s.process_index m).Nodup
        apply List.Nodup.append hqrest.1 (List.nodup_range' _ _)
        intro i hi hi2
        have h1 := inv.q_lt_idx i (hrest_q i hi)
        have h2 := (hrange_lt i hi2).1
        omega
      · intro i r hi hr
        replace hi : i ∈ rest ++ List.range' s.process_index m := hi
        replace hr : (s.pcs.set c done)[i]? = some r := hr
        show 0 < r.remaining_time ∧ r.arrival_time + (r.burst_time - r.remaining_time) ≤ t2
        rcases List.mem_append.mp hi with hi | hi
        · have hne : i ≠ c := fun he => hqrest.2 (he ▸ hi)
          rw [hpcs3_ne i hne] at hr
          obtain ⟨h1, h2⟩ := inv.q_rem i r (hrest_q i hi) hr
          omega
        · obtain ⟨h1, h2⟩ := hrange_lt i hi
          have hne : i ≠ c := by omega
          rw [hpcs3_ne i hne] at hr
          have hr2 : pcs2[i]? = some r := by rw [hpcs2_ne i hne]; exact hr
          have hpend := inv.pend i r h1 hr
          have hval2 := rr_valid_at hv inv.core_eq hr
          have harr := hm_arr i r h1 h2 hr2
          omega
      · intro i r hi hr
        replace hi : s.process_index + m ≤ i := hi
        replace hr : (s.pcs.set c done)[i]? = some r := hr
        have hne : i ≠ c := by omega
        rw [hpcs3_ne i hne] at hr
        exact inv.pend i r (by omega) hr
      · intro he j r hj hr
        replace hj : s.process_index + m ≤ j := hj
        replace hr : (s.pcs.set c done)[j]? = some r := hr
        have hnc : j ≠ c := by omega
        rw [hpcs3_ne j hnc] at hr
        have hr2 : pcs2[j]? = some r := by rw [hpcs2_ne j hnc]; exact hr
        have hjlen : j < pcs2.length := (List.getElem?_eq_some.mp hr2).1
        have hmlen : s.process_index + m < pcs2.length := by omega
        obtain ⟨b, hb⟩ : ∃ b, pcs2[s.process_index + m]? = some b :=
          ⟨pcs2.get ⟨_, hmlen⟩, by simp [List.getElem?_eq_getElem hmlen]⟩
        have h1 := hm_bound b hb
        have h2 := sorted_arr_mono hsort2 hj hb hr2
        show t2 < r.arrival_time
        omega
      · intro i r hi hr
        replace hi : i < s.process_index + m := hi
        replace hr : (s.pcs.set c done)[i]? = some r := hr
        show i ∈ rest ++ List.range' s.process_index m ∨ r.remaining_time = 0
        by_cases hic : i = c
        · subst hic
          rw [hpcs3_c] at hr
          injection hr with hr2
          subst hr2
          right
          show rem2 = 0
          exact hrem20
        · rw [hpcs3_ne i hic] at hr
          by_cases hidx : i < s.process_index
          · rcases inv.part i r hidx hr with hin | h0
            · rw [hqe] at hin
              rcases List.mem_cons.mp hin with he2 | he2
              · exact absurd he2 hic
              · left
                simp [he2]
            · right
              exact h0
          · left
            simp only [List.mem_append]
            right
            rw [List.mem_range'_1]
            omega
      · show s.completedCount + 1 + (rest ++ List.range' s.process_index m).length =
          s.process_index + m
        have hcount := inv.count
        rw [hqe] at hcount
        simp only [List.length_append, List.length_cons, List.length_range'] at hcount ⊢
        omega
      · intro i r hr h0
        replace hr : (s.pcs.set c done)[i]? = some r := hr
        by_cases hic : i = c
        · subst hic
          rw [hpcs3_c] at hr
          injection hr with hr2
          subst hr2
          exact hdone_ok
        · rw [hpcs3_ne i hic] at hr
          exact inv.done_ok i r hr h0
      · intro r hr
        replace hr : r ∈ s.pcs.set c done := hr
        rcases List.mem_or_eq_of_mem_set hr with h1 | h1
        · exact inv.rem_bounds r h1
        · subst h1
          show 0 ≤ rem2 ∧ rem2 ≤ cur.burst_time
          omega
      · show ganttChain (s.gantt ++ [⟨cur.process_id, s.current_time, t2⟩]) 0 t2
        exact ganttChain_append _ _ _ _ _ inv.chain
      · intro e he
        replace he : e ∈ s.gantt ++ [⟨cur.process_id, s.current_time, t2⟩] := he
        rcases List.mem_append.mp he with h1 | h1
        · exact inv.mono e h1
        · simp at h1
          subst h1
          simp
          omega
      · show t2 = s.total_idle_time +
          ((s.pcs.set c done).map fun p => p.burst_time - p.remaining_time).sum
        have hacct := inv.acct
        rw [hsum_acct2]
        omega
    · show (s.pcs.set c done).length = s.pcs.length
      exact List.length_set _ _ _
    · show ((s.pcs.set c done).map fun p => cdiv p.remaining_time.toNat q.toNat).sum <
        (s.pcs.map fun p => cdiv p.remaining_time.toNat q.toNat).sum
      have hq1 : 0 < q.toNat := by omega
      have hz : rem2.toNat = 0 := by omega
      have hc0 : cdiv rem2.toNat q.toNat = 0 := by
        rw [hz]
        exact cdiv_zero_left _ hq1
      have hpos := cdiv_pos cur.remaining_time.toNat q.toNat (by omega) hq1
      omega

lemma rrStep_spec (q : Int) (pcs0 : List Process) (hv : RRValid pcs0) (hq : 0 < q)
    (s : RRState) (inv : RRInv pcs0 s) (hrun : s.completedCount < s.pcs.length) :
    ∃ s', rrStep q s = some s' ∧ RRInv pcs0 s' ∧
      s'.pcs.length = s.pcs.length ∧ rrMeasure q s' < rrMeasure q s := by
  cases hqe : s.ready_queue with
  | cons c rest =>
    have hne : s.ready_queue.isEmpty = false := by rw [hqe]; rfl
    have hstep : rrStep q s = rrRunStep q s := by
      unfold rrStep
      rw [hne]
      simp
    obtain ⟨s', h1, h2, h3, h4⟩ := rrRunStep_spec q pcs0 hv hq s inv c rest hqe
    exact ⟨s', by rw [hstep]; exact h1, h2, h3, h4⟩
  | nil =>
    have hqlen : s.ready_queue.length = 0 := by rw [hqe]; rfl
    have hidx_eq : s.completedCount = s.process_index := by
      have := inv.count
      omega
    have hidx_lt : s.process_index < s.pcs.length := by omega
    obtain ⟨p, hp⟩ : ∃ p, s.pcs[s.process_index]? = some p :=
      ⟨s.pcs.get ⟨_, hidx_lt⟩, by simp [List.getElem?_eq_getElem hidx_lt]⟩
    have hparr : s.current_time < p.arrival_time :=
      inv.pend_arr hqe s.process_index p (le_refl _) hp
    have hvp := rr_valid_at hv inv.core_eq hp
    have hprem := inv.pend s.process_index p (le_refl _) hp
    set s1 : RRState :=
      { s with gantt := s.gantt ++ [⟨"IDLE", s.current_time, p.arrival_time⟩],
               total_idle_time := s.total_idle_time + (p.arrival_time - s.current_time),
               current_time := p.arrival_time,
               ready_queue := s.ready_queue ++ [s.process_index],
               process_index := s.process_index + 1 } with hs1_def
    have hemp : s.ready_queue.isEmpty = true := by rw [hqe]; rfl
    have hstep : rrStep q s = rrRunStep q s1 := by
      unfold rrStep
      rw [hemp, hp]
      simp [hs1_def]
    have hq1 : s1.ready_queue = s.process_index :: [] := by
      show s.ready_queue ++ [s.process_index] = s.process_index :: []
      rw [hqe]
      rfl
    have hinv1 : RRInv pcs0 s1 := by
      refine ⟨inv.core_eq, inv.sorted, ?_, ?_, ?_, ?_, ?_, ?_, ?_, ?_, inv.done_ok,
        inv.rem_bounds, ?_, ?_, ?_⟩
      · show s.process_index + 1 ≤ s.pcs.length
        omega
      · intro i hi
        replace hi : i ∈ s.ready_queue ++ [s.process_index] := hi
        rw [hqe] at hi
        simp at hi
        show i < s.process_index + 1
        omega
      · show (s.ready_queue ++ [s.process_index]).Nodup
        rw [hqe]
        simp
      · intro i r hi hr
        replace hi : i ∈ s.ready_queue ++ [s.process_index] := hi
        rw [hqe] at hi
        simp at hi
        subst hi
        replace hr : s.pcs[s.process_index]? = some r := hr
        rw [hp] at hr
        injection hr with hr2
        subst hr2
        show 0 < p.remaining_time ∧ p.arrival_time + (p.burst_time - p.remaining_time) ≤
          p.arrival_time
        omega
      · intro i r hi hr
        replace hi : s.process_index + 1 ≤ i := hi
        exact inv.pend i r (by omega) hr
      · intro he
        replace he : s.ready_queue ++ [s.process_index] = [] := he
        rw [hqe] at he
        simp at he
      · intro i r hi hr
        replace hi : i < s.process_index + 1 := hi
        replace hr : s.pcs[i]? = some r := hr
        show i ∈ s.ready_queue ++ [s.process_index] ∨ r.remaining_time = 0
        rw [hqe]
        by_cases hie : i = s.process_index
        · subst hie
          left
          simp
        · have hilt : i < s.process_index := by omega
          rcases inv.part i r hilt hr with hin | h0
          · rw [hqe] at hin
            simp at hin
          · right
            exact h0
      · show s.completedCount + (s.ready_queue ++ [s.process_index]).length =
          s.process_index + 1
        rw [hqe]
        simp
        omega
      · show ganttChain (s.gantt ++ [⟨"IDLE", s.current_time, p.arrival_time⟩]) 0
          p.arrival_time
        exact ganttChain_append _ _ _ _ _ inv.chain
      · intro e he
        replace he : e ∈ s.gantt ++ [⟨"IDLE", s.current_time, p.arrival_time⟩] := he
        rcases List.mem_append.mp he with h1 | h1
        · exact inv.mono e h1
        · simp at h1
          subst h1
          simp
          omega
      · show p.arrival_time = s.total_idle_time + (p.arrival_time - s.current_time) +
          (s.pcs.map fun r => r.burst_time - r.remaining_time).sum
        have hacct := inv.acct
        omega
    obtain ⟨s', h1, h2, h3, h4⟩ := rrRunStep_spec q pcs0 hv hq s1 hinv1 s.process_index [] hq1
    refine ⟨s', by rw [hstep]; exact h1, h2, ?_, ?_⟩
    · rw [h3]
    · have hmeq : rrMeasure q s1 = rrMeasure q s := rfl
      omega

lemma rrLoop_zero (q : Int) (s : RRState) :
    rrLoop q 0 s = if s.completedCount < s.pcs.length then RROut.fuelOut else RROut.ok s := rfl

lemma rrLoop_succ (q : Int) (n : Nat) (s : RRState) :
    rrLoop q (n + 1) s =
      if s.completedCount < s.pcs.length then
        match rrStep q s with
        | some s' => rrLoop q n s'
        | none => RROut.crash
      else RROut.ok s := rfl

lemma rr_final (pcs0 : List Process) (s : RRState) (inv : RRInv pcs0 s)
    (hg : ¬ s.completedCount < s.pcs.length) :
    s.pcs.map coreOf = pcs0.map coreOf ∧
    ganttChain s.gantt 0 s.current_time ∧
    (∀ e ∈ s.gantt, e.start_time ≤ e.end_time) ∧
    (∀ r ∈ s.pcs, MetricsOK r) ∧
    s.current_time = s.total_idle_time + (s.pcs.map Process.burst_time).sum := by
  have hcount := inv.count
  have hidx := inv.idx_le
  have hqlen : s.ready_queue.length = 0 := by omega
  have hqnil : s.ready_queue = [] := List.length_eq_zero.mp hqlen
  have hidxlen : s.process_index = s.pcs.length := by omega
  have hrem0 : ∀ r ∈ s.pcs, r.remaining_time = 0 := by
    intro r hr
    obtain ⟨j, hj, hje⟩ := List.mem_iff_getElem.mp hr
    have hj2 : s.pcs[j]? = some r := by rw [List.getElem?_eq_getElem hj, hje]
    rcases inv.part j r (by omega) hj2 with hin | h0
    · rw [hqnil] at hin
      simp at hin
    · exact h0
  refine ⟨inv.core_eq, inv.chain, inv.mono, ?_, ?_⟩
  · intro r hr
    obtain ⟨j, hj, hje⟩ := List.mem_iff_getElem.mp hr
    have hj2 : s.pcs[j]? = some r := by rw [List.getElem?_eq_getElem hj, hje]
    exact inv.done_ok j r hj2 (hrem0 r hr)
  · have hsum : (s.pcs.map fun p => p.burst_time - p.remaining_time).sum =
        (s.pcs.map Process.burst_time).sum := by
      apply congrArg
      apply List.map_congr_left
      intro p hp
      rw [hrem0 p hp]
      omega
    rw [← hsum]
    exact inv.acct

lemma rrMeasure_pos (q : Int) (pcs0 : List Process) (hv : RRValid pcs0) (hq : 0 < q)
    (s : RRState) (inv : RRInv pcs0 s) (hg : s.completedCount < s.pcs.length) :
    0 < rrMeasure q s := by
  cases hqe : s.ready_queue with
  | cons c rest =>
    have hcq : c ∈ s.ready_queue := by rw [hqe]; simp
    have hc_lt : c < s.pcs.length := lt_of_lt_of_le (inv.q_lt_idx c hcq) inv.idx_le
    obtain ⟨cur, hc⟩ : ∃ cur, s.pcs[c]? = some cur :=
      ⟨s.pcs.get ⟨c, hc_lt⟩, by simp [List.getElem?_eq_getElem hc_lt]⟩
    have hrp := (inv.q_rem c cur hcq hc).1
    have hle : cdiv cur.remaining_time.toNat q.toNat ≤
        (s.pcs.map fun p => cdiv p.remaining_time.toNat q.toNat).sum :=
      elem_le_sum_nat (fun p => cdiv p.remaining_time.toNat q.toNat) s.pcs c cur hc
    have hpos := cdiv_pos cur.remaining_time.toNat q.toNat (by omega) (by omega)
    unfold rrMeasure
    omega
  | nil =>
    have hqlen : s.ready_queue.length = 0 := by rw [hqe]; rfl
    have hcount := inv.count
    have hidx_lt : s.process_index < s.pcs.length := by omega
    obtain ⟨p, hp⟩ : ∃ p, s.pcs[s.process_index]? = some p :=
      ⟨s.pcs.get ⟨_, hidx_lt⟩, by simp [List.getElem?_eq_getElem hidx_lt]⟩
    have hprem := inv.pend s.process_index p (le_refl _) hp
    have hvp := rr_valid_at hv inv.core_eq hp
    have hle : cdiv p.remaining_time.toNat q.toNat ≤
        (s.pcs.map fun r => cdiv r.remaining_time.toNat q.toNat).sum :=
      elem_le_sum_nat (fun r => cdiv r.remaining_time.toNat q.toNat) s.pcs
        s.process_index p hp
    have hpos := cdiv_pos p.remaining_time.toNat q.toNat (by omega) (by omega)
    unfold rrMeasure
    omega

lemma rrLoop_no_crash (q : Int) (pcs0 : List Process) (hv : RRValid pcs0) (hq : 0 < q) :
    ∀ (fuel : Nat) (s : RRState), RRInv pcs0 s → rrLoop q fuel s ≠ RROut.crash := by
  intro fuel
  induction fuel with
  | zero =>
    intro s inv
    rw [rrLoop_zero]
    by_cases hg : s.completedCount < s.pcs.length <;> simp [hg]
  | succ n ih =>
    intro s inv
    rw [rrLoop_succ]
    by_cases hg : s.completedCount < s.pcs.length
    · rw [if_pos hg]
      obtain ⟨s', h1, h2, -, -⟩ := rrStep_spec q pcs0 hv hq s inv hg
      rw [h1]
      exact ih s' h2
    · rw [if_neg hg]
      simp

lemma rrLoop_ok_spec (q : Int) (pcs0 : List Process) (hv : RRValid pcs0) (hq : 0 < q) :
    ∀ (fuel : Nat) (s : RRState), RRInv pcs0 s → ∀ s', rrLoop q fuel s = RROut.ok s' →
      s'.pcs.map coreOf = pcs0.map coreOf ∧
      ganttChain s'.gantt 0 s'.current_time ∧
      (∀ e ∈ s'.gantt, e.start_time ≤ e.end_time) ∧
      (∀ r ∈ s'.pcs, MetricsOK r) ∧
      s'.current_time = s'.total_idle_time + (s'.pcs.map Process.burst_time).sum := by
  intro fuel
  induction fuel with
  | zero =>
    intro s inv s' h
    rw [rrLoop_zero] at h
    by_cases hg : s.completedCount < s.pcs.length
    · rw [if_pos hg] at h
      simp at h
    · rw [if_neg hg] at h
      injection h with h2
      subst h2
      exact rr_final pcs0 s inv hg
  | succ n ih =>
    intro s inv s' h
    rw [rrLoop_succ] at h
    by_cases hg : s.completedCount < s.pcs.length
    · rw [if_pos hg] at h
      obtain ⟨s1, h1, h2, -, -⟩ := rrStep_spec q pcs0 hv hq s inv hg
      rw [h1] at h
      exact ih s1 h2 s' h
    · rw [if_neg hg] at h
      injection h with h2
      subst h2
      exact rr_final pcs0 s inv hg

lemma rrLoop_term (q : Int) (pcs0 : List Process) (hv : RRValid pcs0) (hq : 0 < q) :
    ∀ (fuel : Nat) (s : RRState), RRInv pcs0 s → rrMeasure q s < fuel →
      ∃ s', rrLoop q fuel s = RROut.ok s' := by
  intro fuel
  induction fuel with
  | zero =>
    intro s inv hm
    exact absurd hm (Nat.not_lt_zero _)
  | succ n ih =>
    intro s inv hm
    rw [rrLoop_succ]
    by_cases hg : s.completedCount < s.pcs.length
    · rw [if_pos hg]
      obtain ⟨s1, h1, h2, -, h4⟩ := rrStep_spec q pcs0 hv hq s inv hg
      rw [h1]
      exact ih s1 h2 (by omega)
    · rw [if_neg hg]
      exact ⟨s, rfl⟩

lemma schedule_rr_eq (ps : List Process) (q : Int) (fuel : Nat) (r : ScheduleResult)
    (h : schedule_rr ps q fuel = some r) :
    ∃ s, rrLoop q fuel (rrInit ps) = RROut.ok s ∧ r.processes = s.pcs ∧ r.gantt = s.gantt ∧
      r.total_time = s.current_time ∧ r.total_idle_time = s.total_idle_time := by
  unfold schedule_rr at h
  cases hout : rrLoop q fuel (rrInit ps) with
  | ok s =>
    rw [hout] at h
    simp at h
    refine ⟨s, rfl, ?_, ?_, ?_, ?_⟩ <;> rw [← h] <;> rfl
  | fuelOut =>
    rw [hout] at h
    simp at h
  | crash =>
    rw [hout] at h
    simp at h

lemma rrInit_valid (ps : List Process) (hv : ValidInput ps) : RRValid (rrInit ps).pcs := by
  rw [rrInit_pcs]
  exact (rrInit_copy_facts ps hv).1

lemma rrInit_core_perm (ps : List Process) :
    ((rrInit ps).pcs.map coreOf).Perm (ps.map coreOf) := by
  rw [rrInit_pcs]
  have h1 := (sortByArrival_perm (ps.map Process.copy)).map coreOf
  have h2 : (ps.map Process.copy).map coreOf = ps.map coreOf := by
    rw [List.map_map]
    apply List.map_congr_left
    intro p _
    simp [Function.comp, coreOf, Process.copy]
  rw [h2] at h1
  exact h1

lemma rrInit_len (ps : List Process) : (rrInit ps).pcs.length = ps.length := by
  rw [rrInit_pcs, (sortByArrival_perm (ps.map Process.copy)).length_eq, List.length_map]

/-- All documented schedule-level facts for RR on a valid input and a
positive quantum, for any successful run. -/
lemma schedule_rr_spec (ps : List Process) (q : Int) (hv : ValidInput ps) (hq : 0 < q)
    (fuel : Nat) (r : ScheduleResult) (h : schedule_rr ps q fuel = some r) :
    GanttOK r.gantt r.total_time ∧
    (∀ p ∈ r.processes, MetricsOK p) ∧
    (r.processes.map coreOf).Perm (ps.map coreOf) ∧
    (r.processes.map Process.burst_time).sum + r.total_idle_time = r.total_time ∧
    r.processes.length = ps.length := by
  obtain ⟨s, hout, hp, hg, ht, hi⟩ := schedule_rr_eq ps q fuel r h
  obtain ⟨h1, h2, h3, h4, h5⟩ := rrLoop_ok_spec q (rrInit ps).pcs (rrInit_valid ps hv) hq fuel
    (rrInit ps) (rrInit_inv ps hv) s hout
  refine ⟨?_, ?_, ?_, ?_, ?_⟩
  · rw [hg, ht]
    exact ganttOK_of _ _ h2 h3
  · intro p hp2
    exact h4 p (by rwa [hp] at hp2)
  · rw [hp, h1]
    exact rrInit_core_perm ps
  · rw [hp, hi, ht]
    omega
  · rw [hp, length_of_map_core h1, rrInit_len]

/-- The total burst time of the input, as a natural number. -/
def totalBurstNat (ps : List Process) : Nat := (ps.map fun p => p.burst_time.toNat).sum

/-- The fuel bound for RR promised by the documentation: the number of
processes plus the total burst time divided by the quantum (plus one). -/
def rrFuel (ps : List Process) (q : Int) : Nat :=
  ps.length + totalBurstNat ps / q.toNat + 1

lemma sum_cdiv_le (b : Nat) (hb : 0 < b) :
    ∀ l : List Nat, (l.map fun a => cdiv a b).sum ≤ l.length + l.sum / b := by
  intro l
  induction l with
  | nil => simp
  | cons a rest ih =>
    simp only [List.map_cons, List.sum_cons, List.length_cons]
    have h1 := cdiv_le_div_succ a b hb
    have h2 : a / b + rest.sum / b ≤ (a + rest.sum) / b := by
      rw [Nat.le_div_iff_mul_le hb, Nat.add_mul]
      have h3 := Nat.div_mul_le_self a b
      have h4 := Nat.div_mul_le_self rest.sum b
      omega
    omega

lemma rrMeasure_init (ps : List Process) (hv : ValidInput ps) (q : Int) (hq : 0 < q) :
    rrMeasure q (rrInit ps) < rrFuel ps q := by
  unfold rrMeasure rrFuel
  rw [rrInit_pcs]
  have hperm := (sortByArrival_perm (ps.map Process.copy)).map
    (fun p => cdiv p.remaining_time.toNat q.toNat)
  rw [hperm.sum_eq, List.map_map]
  have hcong : ps.map ((fun p => cdiv p.remaining_time.toNat q.toNat) ∘ Process.copy) =
      ps.map (fun p => cdiv p.burst_time.toNat q.toNat) := by
    apply List.map_congr_left
    intro p hp
    have hr := (hv p hp).2.2
    simp only [Function.comp]
    show cdiv (Process.copy p).remaining_time.toNat q.toNat = cdiv p.burst_time.toNat q.toNat
    show cdiv p.remaining_time.toNat q.toNat = cdiv p.burst_time.toNat q.toNat
    rw [hr]
  rw [hcong]
  have h1 := sum_cdiv_le q.toNat (by omega) (ps.map fun p => p.burst_time.toNat)
  rw [List.map_map, List.length_map] at h1
  have h2 : ps.map ((fun a => cdiv a q.toNat) ∘ fun p => p.burst_time.toNat) =
      ps.map (fun p => cdiv p.burst_time.toNat q.toNat) := rfl
  rw [h2] at h1
  unfold totalBurstNat
  omega

lemma schedule_rr_terminates (ps : List Process) (hv : ValidInput ps) (q : Int) (hq : 0 < q) :
    ∃ r, schedule_rr ps q (rrFuel ps q) = some r := by
  obtain ⟨s, hs⟩ := rrLoop_term q (rrInit ps).pcs (rrInit_valid ps hv) hq (rrFuel ps q)
    (rrInit ps) (rrInit_inv ps hv) (rrMeasure_init ps hv q hq)
  refine ⟨get_results_dict s.pcs s.gantt s.current_time s.total_idle_time, ?_⟩
  unfold schedule_rr
  rw [hs]

lemma npMeasure_init (ps : List Process) : npMeasure ps [] 0 < 2 * ps.length + 1 := by
  calc npMeasure ps [] 0 ≤ 2 * (ps.length - List.length []) := Nat.sub_le _ _
    _ < 2 * ps.length + 1 := by omega

lemma schedule_sjf_terminates (ps : List Process) (hv : ValidInput ps) :
    ∃ r, schedule_sjf ps (2 * ps.length + 1) = some r := by
  have h := npLoop_terminates sjfKey ps hv (2 * ps.length + 1) ps []
    { gantt := [], current_time := 0, total_idle_time := 0 } (npInv_init ps)
    (npMeasure_init ps)
  obtain ⟨out, hout⟩ := Option.isSome_iff_exists.mp h
  refine ⟨get_results_dict out.1 out.2.gantt out.2.current_time out.2.total_idle_time, ?_⟩
  unfold schedule_sjf
  rw [hout]
  rfl

lemma schedule_priority_terminates (ps : List Process) (hv : ValidInput ps) :
    ∃ r, schedule_priority ps (2 * ps.length + 1) = some r := by
  have h := npLoop_terminates priorityKey ps hv (2 * ps.length + 1) ps []
    { gantt := [], current_time := 0, total_idle_time := 0 } (npInv_init ps)
    (npMeasure_init ps)
  obtain ⟨out, hout⟩ := Option.isSome_iff_exists.mp h
  refine ⟨get_results_dict out.1 out.2.gantt out.2.current_time out.2.total_idle_time, ?_⟩
  unfold schedule_priority
  rw [hout]
  rfl

/-- Claim C5: for every policy and every valid input (non-negative
arrivals, positive bursts, fresh remaining times; positive quantum for
RR), the returned Gantt sequence is contiguous and non-overlapping —
it chains from clock 0, every duration is non-negative, start times are
non-decreasing, the first entry starts at 0 — and the durations sum to
`total_time`.  The loop-based policies are quantified over every fuel
bound and every successful result. -/
theorem C5_gantt_contiguous (ps : List Process) (q : Int) (fuel : Nat)
    (hv : ValidInput ps) (hq : 0 < q) :
    GanttOK (schedule_fcfs ps).gantt (schedule_fcfs ps).total_time ∧
    (∀ r, schedule_sjf ps fuel = some r → GanttOK r.gantt r.total_time) ∧
    (∀ r, schedule_priority ps fuel = some r → GanttOK r.gantt r.total_time) ∧
    (∀ r, schedule_rr ps q fuel = some r → GanttOK r.gantt r.total_time) := by
  refine ⟨(schedule_fcfs_spec ps hv).1, ?_, ?_, ?_⟩
  · intro r h
    obtain ⟨out, hout, hp, hg, ht, hi⟩ := schedule_sjf_eq ps fuel r h
    rw [hg, ht]
    exact (schedule_np_spec sjfKey ps hv fuel out hout).1
  · intro r h
    obtain ⟨out, hout, hp, hg, ht, hi⟩ := schedule_priority_eq ps fuel r h
    rw [hg, ht]
    exact (schedule_np_spec priorityKey ps hv fuel out hout).1
  · intro r h
    exact (schedule_rr_spec ps q hv hq fuel r h).1

theorem C5_witness :
    GanttOK (schedule_fcfs [mkProcess "A" 0 2 2, mkProcess "B" 1 2 1]).gantt
      (schedule_fcfs [mkProcess "A" 0 2 2, mkProcess "B" 1 2 1]).total_time ∧
    (∀ r, schedule_sjf [mkProcess "A" 0 2 2, mkProcess "B" 1 2 1] 9 = some r →
      GanttOK r.gantt r.total_time) ∧
    (∀ r, schedule_priority [mkProcess "A" 0 2 2, mkProcess "B" 1 2 1] 9 = some r →
      GanttOK r.gantt r.total_time) ∧
    (∀ r, schedule_rr [mkProcess "A" 0 2 2, mkProcess "B" 1 2 1] 2 9 = some r →
      GanttOK r.gantt r.total_time) :=
  C5_gantt_contiguous [mkProcess "A" 0 2 2, mkProcess "B" 1 2 1] 2 9 (by decide) (by decide)

/-- Claim C6: for every policy and every valid input, every process in
the returned result (all of which are completed) satisfies
`turnaround_time = finish_time - arrival_time`,
`waiting_time = turnaround_time - burst_time`, and `waiting_time ≥ 0`. -/
theorem C6_metrics (ps : List Process) (q : Int) (fuel : Nat)
    (hv : ValidInput ps) (hq : 0 < q) :
    (∀ p ∈ (schedule_fcfs ps).processes, MetricsOK p) ∧
    (∀ r, schedule_sjf ps fuel = some r → ∀ p ∈ r.processes, MetricsOK p) ∧
    (∀ r, schedule_priority ps fuel = some r → ∀ p ∈ r.processes, MetricsOK p) ∧
    (∀ r, schedule_rr ps q fuel = some r → ∀ p ∈ r.processes, MetricsOK p) := by
  refine ⟨(schedule_fcfs_spec ps hv).2.1, ?_, ?_, ?_⟩
  · intro r h
    obtain ⟨out, hout, hp, hg, ht, hi⟩ := schedule_sjf_eq ps fuel r h
    rw [hp]
    exact (schedule_np_spec sjfKey ps hv fuel out hout).2.1
  · intro r h
    obtain ⟨out, hout, hp, hg, ht, hi⟩ := schedule_priority_eq ps fuel r h
    rw [hp]
    exact (schedule_np_spec priorityKey ps hv fuel out hout).2.1
  · intro r h
    exact (schedule_rr_spec ps q hv hq fuel r h).2.1

theorem C6_witness :
    (∀ p ∈ (schedule_fcfs [mkProcess "A" 0 2 2, mkProcess "B" 1 2 1]).processes, MetricsOK p) ∧
    (∀ r, schedule_sjf [mkProcess "A" 0 2 2, mkProcess "B" 1 2 1] 9 = some r →
      ∀ p ∈ r.processes, MetricsOK p) ∧
    (∀ r, schedule_priority [mkProcess "A" 0 2 2, mkProcess "B" 1 2 1] 9 = some r →
      ∀ p ∈ r.processes, MetricsOK p) ∧
    (∀ r, schedule_rr [mkProcess "A" 0 2 2, mkProcess "B" 1 2 1] 2 9 = some r →
      ∀ p ∈ r.processes, MetricsOK p) :=
  C6_metrics [mkProcess "A" 0 2 2, mkProcess "B" 1 2 1] 2 9 (by decide) (by decide)

/-- Claim C7: for every policy and every valid input, the completed
processes of the result are exactly the input processes (their identity
fields form a permutation of the input's — each input process appears
exactly once), and the sum of all burst times plus `total_idle_time`
equals `total_time`. -/
theorem C7_conservation (ps : List Process) (q : Int) (fuel : Nat)
    (hv : ValidInput ps) (hq : 0 < q) :
    (((schedule_fcfs ps).processes.map coreOf).Perm (ps.map coreOf) ∧
      ((schedule_fcfs ps).processes.map Process.burst_time).sum +
        (schedule_fcfs ps).total_idle_time = (schedule_fcfs ps).total_time) ∧
    (∀ r, schedule_sjf ps fuel = some r →
      (r.processes.map coreOf).Perm (ps.map coreOf) ∧
      (r.processes.map Process.burst_time).sum + r.total_idle_time = r.total_time) ∧
    (∀ r, schedule_priority ps fuel = some r →
      (r.processes.map coreOf).Perm (ps.map coreOf) ∧
      (r.processes.map Process.burst_time).sum + r.total_idle_time = r.total_time) ∧
    (∀ r, schedule_rr ps q fuel = some r →
      (r.processes.map coreOf).Perm (ps.map coreOf) ∧
      (r.processes.map Process.burst_time).sum + r.total_idle_time = r.total_time) := by
  obtain ⟨-, -, hf1, hf2, -⟩ := schedule_fcfs_spec ps hv
  refine ⟨⟨hf1, hf2⟩, ?_, ?_, ?_⟩
  · intro r h
    obtain ⟨out, hout, hp, hg, ht, hi⟩ := schedule_sjf_eq ps fuel r h
    obtain ⟨-, -, h3, h4, -⟩ := schedule_np_spec sjfKey ps hv fuel out hout
    rw [hp, ht, hi]
    exact ⟨h3, h4⟩
  · intro r h
    obtain ⟨out, hout, hp, hg, ht, hi⟩ := schedule_priority_eq ps fuel r h
    obtain ⟨-, -, h3, h4, -⟩ := schedule_np_spec priorityKey ps hv fuel out hout
    rw [hp, ht, hi]
    exact ⟨h3, h4⟩
  · intro r h
    obtain ⟨-, -, h3, h4, -⟩ := schedule_rr_spec ps q hv hq fuel r h
    exact ⟨h3, h4⟩

theorem C7_witness :
    (((schedule_fcfs [mkProcess "A" 0 2 2, mkProcess "B" 1 2 1]).processes.map coreOf).Perm
        ([mkProcess "A" 0 2 2, mkProcess "B" 1 2 1].map coreOf) ∧
      ((schedule_fcfs [mkProcess "A" 0 2 2, mkProcess "B" 1 2 1]).processes.map
        Process.burst_time).sum +
        (schedule_fcfs [mkProcess "A" 0 2 2, mkProcess "B" 1 2 1]).total_idle_time =
        (schedule_fcfs [mkProcess "A" 0 2 2, mkProcess "B" 1 2 1]).total_time) ∧
    (∀ r, schedule_sjf [mkProcess "A" 0 2 2, mkProcess "B" 1 2 1] 9 = some r →
      (r.processes.map coreOf).Perm ([mkProcess "A" 0 2 2, mkProcess "B" 1 2 1].map coreOf) ∧
      (r.processes.map Process.burst_time).sum + r.total_idle_time = r.total_time) ∧
    (∀ r, schedule_priority [mkProcess "A" 0 2 2, mkProcess "B" 1 2 1] 9 = some r →
      (r.processes.map coreOf).Perm ([mkProcess "A" 0 2 2, mkProcess "B" 1 2 1].map coreOf) ∧
      (r.processes.map Process.burst_time).sum + r.total_idle_time = r.total_time) ∧
    (∀ r, schedule_rr [mkProcess "A" 0 2 2, mkProcess "B" 1 2 1] 2 9 = some r →
      (r.processes.map coreOf).Perm ([mkProcess "A" 0 2 2, mkProcess "B" 1 2 1].map coreOf) ∧
      (r.processes.map Process.burst_time).sum + r.total_idle_time = r.total_time) :=
  C7_conservation [mkProcess "A" 0 2 2, mkProcess "B" 1 2 1] 2 9 (by decide) (by decide)

/-- Claim C9: on every valid input, the SJF and Priority loops return
within `2·n + 1` iterations, and — for every positive quantum — the RR
loop returns within `n + (total burst)/quantum + 1` iterations
(`rrFuel`); FCFS is a single pass producing one record per process. -/
theorem C9_termination (ps : List Process) (q : Int) (hv : ValidInput ps) (hq : 0 < q) :
    (schedule_fcfs ps).processes.length = ps.length ∧
    (∃ r, schedule_sjf ps (2 * ps.length + 1) = some r) ∧
    (∃ r, schedule_priority ps (2 * ps.length + 1) = some r) ∧
    (∃ r, schedule_rr ps q (rrFuel ps q) = some r) :=
  ⟨(schedule_fcfs_spec ps hv).2.2.2.2, schedule_sjf_terminates ps hv,
    schedule_priority_terminates ps hv, schedule_rr_terminates ps hv q hq⟩

theorem C9_witness :
    (schedule_fcfs [mkProcess "A" 0 2 2, mkProcess "B" 1 2 1]).processes.length =
      [mkProcess "A" 0 2 2, mkProcess "B" 1 2 1].length ∧
    (∃ r, schedule_sjf [mkProcess "A" 0 2 2, mkProcess "B" 1 2 1]
      (2 * [mkProcess "A" 0 2 2, mkProcess "B" 1 2 1].length + 1) = some r) ∧
    (∃ r, schedule_priority [mkProcess "A" 0 2 2, mkProcess "B" 1 2 1]
      (2 * [mkProcess "A" 0 2 2, mkProcess "B" 1 2 1].length + 1) = some r) ∧
    (∃ r, schedule_rr [mkProcess "A" 0 2 2, mkProcess "B" 1 2 1] 2
      (rrFuel [mkProcess "A" 0 2 2, mkProcess "B" 1 2 1] 2) = some r) :=
  C9_termination [mkProcess "A" 0 2 2, mkProcess "B" 1 2 1] 2 (by decide) (by decide)

/-- Claim C10: with a positive quantum, on every valid input and for
every fuel bound, the RR loop never raises: in particular the idle
branch's `processes_copy[process_index]` access is always in range
(whenever the ready queue is empty while `completed <
len(processes_copy)`, every uncompleted process is queued or pending, so
`process_index < len(processes_copy)`). -/
theorem C10_no_index_error (ps : List Process) (q : Int) (fuel : Nat)
    (hv : ValidInput ps) (hq : 0 < q) :
    rrLoop q fuel (rrInit ps) ≠ RROut.crash :=
  rrLoop_no_crash q (rrInit ps).pcs (rrInit_valid ps hv) hq fuel (rrInit ps) (rrInit_inv ps hv)

theorem C10_witness :
    rrLoop 2 3 (rrInit [mkProcess "A" 0 2 2, mkProcess "B" 1 2 1]) ≠ RROut.crash :=
  C10_no_index_error [mkProcess "A" 0 2 2, mkProcess "B" 1 2 1] 2 3 (by decide) (by decide)

/-- Claim C8: in `schedule_rr`, whenever a quantum ends and the just-run
process `cur` (dequeued from the head of the ready queue) still has
positive remaining time, the step appends to the ready queue exactly the
not-yet-admitted processes (the consecutive index range starting at
`process_index`) whose arrival time is at most the new clock — in
arrival-sorted order — strictly before re-appending the preempted
process at the tail; the admitted range is maximal: the next pending
process (if any) arrives strictly later. -/
theorem C8_arrivals_before_preempted (q : Int) (s : RRState) (c : Nat) (rest : List Nat)
    (cur : Process)
    (hqe : s.ready_queue = c :: rest) (hc : s.pcs[c]? = some cur)
    (hidx : s.process_index ≤ s.pcs.length)
    (hrem : 0 < cur.remaining_time - min q cur.remaining_time) :
    ∃ (s' : RRState) (k : Nat),
      rrStep q s = some s' ∧
      s'.ready_queue = (rest ++ List.range' s.process_index k) ++ [c] ∧
      s'.process_index = s.process_index + k ∧
      (∀ (j : Nat) (p : Process), s.process_index ≤ j → j < s.process_index + k →
        s.pcs[j]? = some p → p.arrival_time ≤ s.current_time + min q cur.remaining_time) ∧
      (∀ p : Process, s.pcs[s.process_index + k]? = some p →
        s.current_time + min q cur.remaining_time < p.arrival_time) := by
  have hne : s.ready_queue.isEmpty = false := by rw [hqe]; rfl
  have hstep : rrStep q s = rrRunStep q s := by
    unfold rrStep
    rw [hne]
    simp
  have hc_lt : c < s.pcs.length := (List.getElem?_eq_some.mp hc).1
  have hlen2 : (s.pcs.set c
      { cur with remaining_time := cur.remaining_time - min q cur.remaining_time }).length =
      s.pcs.length := List.length_set _ _ _
  obtain ⟨m, heam, hm_le, hm_arr, hm_bound⟩ :=
    enqueueArrived_spec
      (s.pcs.set c { cur with remaining_time := cur.remaining_time - min q cur.remaining_time })
      (s.current_time + min q cur.remaining_time) s.process_index rest
      (by rw [hlen2]; exact hidx)
  have htrans : ∀ (j : Nat) (p : Process), s.pcs[j]? = some p →
      ∃ p2, (s.pcs.set c
          { cur with remaining_time := cur.remaining_time - min q cur.remaining_time })[j]? =
          some p2 ∧ p2.arrival_time = p.arrival_time := by
    intro j p hp
    by_cases hjc : j = c
    · subst hjc
      rw [hc] at hp
      injection hp with hp2
      subst hp2
      exact ⟨_, List.getElem?_set_eq_of_lt _ hc_lt, rfl⟩
    · exact ⟨p, by rw [List.getElem?_set_ne (fun he => hjc he.symm)]; exact hp, rfl⟩
  refine ⟨{ pcs := s.pcs.set c
              { cur with remaining_time := cur.remaining_time - min q cur.remaining_time },
            ready_queue := (rest ++ List.range' s.process_index m) ++ [c],
            completedCount := s.completedCount,
            process_index := s.process_index + m,
            gantt := s.gantt ++ [⟨cur.process_id, s.current_time,
              s.current_time + min q cur.remaining_time⟩],
            current_time := s.current_time + min q cur.remaining_time,
            total_idle_time := s.total_idle_time }, m, ?_, rfl, rfl, ?_, ?_⟩
  · rw [hstep]
    simp only [rrRunStep, hqe, hc]
    rw [if_pos hrem, heam]
  · intro j p hj1 hj2 hp
    obtain ⟨p2, hp2, he⟩ := htrans j p hp
    have h1 := hm_arr j p2 hj1 hj2 hp2
    omega
  · intro p hp
    obtain ⟨p2, hp2, he⟩ := htrans _ p hp
    have h1 := hm_bound p2 hp2
    omega

theorem C8_witness :
    ∃ (s' : RRState) (k : Nat),
      rrStep 2 { pcs := [⟨"A", 0, 5, 1, 5, 0, 0, 0⟩, ⟨"B", 1, 3, 1, 3, 0, 0, 0⟩],
                 ready_queue := [0], completedCount := 0, process_index := 1,
                 gantt := [], current_time := 0, total_idle_time := 0 } = some s' ∧
      s'.ready_queue = ([] ++ List.range' 1 k) ++ [0] ∧
      s'.process_index = 1 + k ∧
      (∀ (j : Nat) (p : Process), 1 ≤ j → j < 1 + k →
        [⟨"A", 0, 5, 1, 5, 0, 0, 0⟩, (⟨"B", 1, 3, 1, 3, 0, 0, 0⟩ : Process)][j]? = some p →
        p.arrival_time ≤ 0 + min 2 (5 : Int)) ∧
      (∀ p : Process, [⟨"A", 0, 5, 1, 5, 0, 0, 0⟩, (⟨"B", 1, 3, 1, 3, 0, 0, 0⟩ : Process)][1 + k]? = some p →
        0 + min 2 (5 : Int) < p.arrival_time) :=
  C8_arrivals_before_preempted 2
    { pcs := [⟨"A", 0, 5, 1, 5, 0, 0, 0⟩, ⟨"B", 1, 3, 1, 3, 0, 0, 0⟩],
      ready_queue := [0], completedCount := 0, process_index := 1,
      gantt := [], current_time := 0, total_idle_time := 0 }
    0 [] ⟨"A", 0, 5, 1, 5, 0, 0, 0⟩ (by decide) (by decide) (by decide) (by decide)
